import Mathlib

deriving instance DecidableEq for Except

/-!
Verification of the resolver core of cargo-compat (src/resolver.rs) against its
natural-language specification.  The development shallowly embeds the data model
(semver versions, comparators, requirements — following the semantics of the
`semver` crate the source uses), the interval searcher `binary_search_bounds`,
the requirement simplifier `simplify_version_req`, the probe memoizer
`validator_fn` from `resolve_package`, the seed selector `populate_default`,
the seed-repair loop at the start of `Resolver::resolve`, and
`write_cargo_toml_with_resolved_versions`.
-/

namespace CargoCompat

/-- Pre-release identifier: numeric or alphanumeric, as in the SemVer grammar. -/
inductive PreIdent where
  | num (n : Nat)
  | alpha (s : String)
deriving DecidableEq, Repr

/-- Strict order on pre-release identifiers: numeric identifiers compare by
value and are lower than alphanumeric ones, which compare lexically
(semver crate, `Ord for Prerelease`, per-identifier comparison). -/
def identLt : PreIdent → PreIdent → Bool
  | .num m, .num n => m < n
  | .num _, .alpha _ => true
  | .alpha _, .num _ => false
  | .alpha s, .alpha t => decide (s < t)

/-- Lexicographic strict order on dot-separated identifier lists; a proper
prefix is smaller (semver crate, `Ord for Prerelease`, list traversal). -/
def preLexLt : List PreIdent → List PreIdent → Bool
  | [], [] => false
  | [], _ :: _ => true
  | _ :: _, [] => false
  | a :: as, b :: bs => identLt a b || (a == b && preLexLt as bs)

/-- Strict order on pre-release tags: the empty tag (a real release) is greater
than every non-empty tag (semver crate, `Ord for Prerelease`). -/
def preLt : List PreIdent → List PreIdent → Bool
  | [], _ => false
  | _ :: _, [] => true
  | as, bs => preLexLt as bs

/-- Semantic version: `(major, minor, patch)` plus optional pre-release tag,
per the data model in the spec (build metadata is not part of the model). -/
structure SemVersion where
  major : Nat
  minor : Nat
  patch : Nat
  pre : List PreIdent
deriving DecidableEq, Repr

/-- Strict semver order on versions (semver crate, `Ord for Version`). -/
def versLt (a b : SemVersion) : Bool :=
  a.major < b.major ||
    (a.major == b.major &&
      (a.minor < b.minor ||
        (a.minor == b.minor &&
          (a.patch < b.patch ||
            (a.patch == b.patch && preLt a.pre b.pre)))))

/-- Non-strict semver order, used by `versions.sort()`. -/
def versLe (a b : SemVersion) : Bool :=
  versLt a b || a == b

/-- Comparator operator (semver crate `Op`; the resolver builds `>=`, `<=`,
`=`, `^`, and declared requirements may use any of them). -/
inductive ReqOp where
  | exact
  | greater
  | greaterEq
  | less
  | lessEq
  | tilde
  | caret
  | wildcard
deriving DecidableEq, Repr

/-- One comparator of a requirement (semver crate `Comparator`). -/
structure Comparator where
  op : ReqOp
  major : Nat
  minor : Option Nat
  patch : Option Nat
  pre : List PreIdent
deriving DecidableEq, Repr

/-- A version requirement: conjunction of comparators (semver crate
`VersionReq`). -/
structure VersionReq where
  comparators : List Comparator
deriving DecidableEq, Repr

/-- The universal requirement `*` (semver crate `VersionReq::STAR`: an empty
comparator list). -/
def star : VersionReq := ⟨[]⟩

/-- Exact-component match (semver crate `matches_exact`). -/
def matchesExact (cmp : Comparator) (ver : SemVersion) : Bool :=
  ver.major == cmp.major &&
    (match cmp.minor with | none => true | some m => ver.minor == m) &&
    (match cmp.patch with | none => true | some p => ver.patch == p) &&
    ver.pre == cmp.pre

/-- Greater-than match (semver crate `matches_greater`). -/
def matchesGreater (cmp : Comparator) (ver : SemVersion) : Bool :=
  if ver.major != cmp.major then ver.major > cmp.major
  else match cmp.minor with
    | none => false
    | some minor =>
      if ver.minor != minor then ver.minor > minor
      else match cmp.patch with
        | none => false
        | some patch =>
          if ver.patch != patch then ver.patch > patch
          else preLt cmp.pre ver.pre

/-- Less-than match (semver crate `matches_less`). -/
def matchesLess (cmp : Comparator) (ver : SemVersion) : Bool :=
  if ver.major != cmp.major then ver.major < cmp.major
  else match cmp.minor with
    | none => false
    | some minor =>
      if ver.minor != minor then ver.minor < minor
      else match cmp.patch with
        | none => false
        | some patch =>
          if ver.patch != patch then ver.patch < patch
          else preLt ver.pre cmp.pre

/-- Tilde match (semver crate `matches_tilde`). -/
def matchesTilde (cmp : Comparator) (ver : SemVersion) : Bool :=
  if ver.major != cmp.major then false
  else if (match cmp.minor with | none => false | some minor => ver.minor != minor) then
    false
  else match cmp.patch with
    | some patch =>
      if ver.patch != patch then ver.patch > patch
      else !(preLt ver.pre cmp.pre)
    | none => !(preLt ver.pre cmp.pre)

/-- Caret match (semver crate `matches_caret`). -/
def matchesCaret (cmp : Comparator) (ver : SemVersion) : Bool :=
  if ver.major != cmp.major then false
  else match cmp.minor with
    | none => true
    | some minor =>
      match cmp.patch with
      | none =>
        if cmp.major > 0 then ver.minor ≥ minor else ver.minor == minor
      | some patch =>
        if cmp.major > 0 then
          if ver.minor != minor then ver.minor > minor
          else if ver.patch != patch then ver.patch > patch
          else !(preLt ver.pre cmp.pre)
        else if minor > 0 then
          if ver.minor != minor then false
          else if ver.patch != patch then ver.patch > patch
          else !(preLt ver.pre cmp.pre)
        else if ver.minor != minor || ver.patch != patch then false
        else !(preLt ver.pre cmp.pre)

/-- Dispatch on the comparator operator (semver crate `matches_impl`). -/
def matchesImpl (cmp : Comparator) (ver : SemVersion) : Bool :=
  match cmp.op with
  | .exact => matchesExact cmp ver
  | .wildcard => matchesExact cmp ver
  | .greater => matchesGreater cmp ver
  | .greaterEq => matchesExact cmp ver || matchesGreater cmp ver
  | .less => matchesLess cmp ver
  | .lessEq => matchesExact cmp ver || matchesLess cmp ver
  | .tilde => matchesTilde cmp ver
  | .caret => matchesCaret cmp ver

/-- Pre-release compatibility gate (semver crate `pre_is_compatible`): a
comparator admits a pre-release version only if it names the same
`major.minor.patch` and itself carries a non-empty pre-release tag. -/
def preIsCompatible (cmp : Comparator) (ver : SemVersion) : Bool :=
  cmp.major == ver.major && cmp.minor == some ver.minor &&
    cmp.patch == some ver.patch && !cmp.pre.isEmpty

/-- Requirement matching (semver crate `matches_req`): all comparators must
match, and a pre-release version additionally needs one pre-compatible
comparator. -/
def reqMatches (req : VersionReq) (ver : SemVersion) : Bool :=
  req.comparators.all (fun cmp => matchesImpl cmp ver) &&
    (ver.pre.isEmpty || req.comparators.any (fun cmp => preIsCompatible cmp ver))

/-- Insert a version into a sorted list, keeping it sorted. -/
def insertVersion (v : SemVersion) : List SemVersion → List SemVersion
  | [] => [v]
  | w :: ws => if versLe v w then v :: w :: ws else w :: insertVersion v ws

/-- Sort a version list ascending by semver order; models `versions.sort()`. -/
def sortVersions : List SemVersion → List SemVersion
  | [] => []
  | v :: vs => insertVersion v (sortVersions vs)

/-- Contents of a `BTreeSet<Version>` built by collecting a list: sorted,
without duplicates. -/
def btreeSetOf (l : List SemVersion) : List SemVersion :=
  (sortVersions l).dedup

/-- Requirement simplifier, from `simplify_version_req` in src/resolver.rs.
Returns `*` when the input matches everything (or is empty), an exact pin
when exactly one version matches, then tries `^major`, `^major.minor`,
`^major.minor.patch`, and otherwise returns the input unchanged.  The two
`unreachable` fallbacks model expressions the Rust code evaluates only on
paths excluded by the preceding guards (`unwrap` of a one-element set's
iterator and indexing `comparators[0]` after the emptiness guard). -/
def simplify_version_req (version_req : VersionReq) (versions : List SemVersion) :
    VersionReq :=
  if version_req.comparators.isEmpty
      || versions.all (fun v => reqMatches version_req v) then
    star
  else
    let matching_versions :=
      btreeSetOf (versions.filter (fun v => reqMatches version_req v))
    if matching_versions.length == 1 then
      match matching_versions.head? with
      | some v => ⟨[⟨.exact, v.major, some v.minor, some v.patch, v.pre⟩]⟩
      | none => version_req
    else
      match version_req.comparators.head? with
      | none => version_req
      | some c0 =>
        let check_proposal := fun (proposal : VersionReq) =>
          btreeSetOf (versions.filter (fun v => reqMatches proposal v))
            == matching_versions
        let caret1 : VersionReq := ⟨[⟨.caret, c0.major, none, none, []⟩]⟩
        if check_proposal caret1 then caret1
        else
          let caret2 : VersionReq :=
            ⟨[⟨.caret, c0.major, some (c0.minor.getD 0), none, []⟩]⟩
          if check_proposal caret2 then caret2
          else
            let caret3 : VersionReq :=
              ⟨[⟨.caret, c0.major, some (c0.minor.getD 0),
                  some (c0.patch.getD 0), []⟩]⟩
            if check_proposal caret3 then caret3
            else version_req

/-- Errors of the tool (src/error.rs); the resolver only threads them
through, so the message payload suffices for the embedding. -/
inductive RError where
  | anyIo (msg : String)
  | other (msg : String)
deriving DecidableEq, Repr

/-- Placeholder version for out-of-range indexing; every access the code
performs is within bounds. -/
def defaultVersion : SemVersion := ⟨0, 0, 0, []⟩

/-- One boundary bisection loop of `binary_search_bounds` (both the
left-side and the right-side loop of src/resolver.rs have this body):
`inv` is the current invalid index, `lv` the current valid one.  The probe
is a stateful, fallible closure, modelling `&mut impl FnMut(&Version) ->
Result<bool, Error>`.  The loop is embedded with an explicit structural
counter `fuel`, initialized by the caller to the loop's termination measure
`|inv − lv|`; the gap strictly shrinks on every probing iteration, so with
that initial fuel the zero-fuel branch is never reached. -/
def bisect {σ : Type} (probe : σ → SemVersion → (Except RError Bool) × σ)
    (versions : List SemVersion) :
    Nat → Nat → Nat → σ → (Except RError (Nat × Nat)) × σ
  | fuel, inv, lv, st =>
    let mid := (inv + lv) / 2
    if mid = lv ∨ mid = inv then (.ok (inv, lv), st)
    else
      match fuel with
      | 0 => (.ok (inv, lv), st)
      | fuel' + 1 =>
        match probe st (versions.getD mid defaultVersion) with
        | (.error e, st') => (.error e, st')
        | (.ok true, st') => bisect probe versions fuel' inv mid st'
        | (.ok false, st') => bisect probe versions fuel' mid lv st'

/-- One side of the two-sided search in `binary_search_bounds`: first probe
the extreme index `endIdx` (`V[0]` on the left, `V[n-1]` on the right); if it
passes the side is open (`none`), otherwise bisect between it and the seed
index `s`.  Returns the final `(invalid?, valid)` pair. -/
def search_side {σ : Type} (probe : σ → SemVersion → (Except RError Bool) × σ)
    (versions : List SemVersion) (endIdx s : Nat) (st : σ) :
    (Except RError (Option Nat × Nat)) × σ :=
  match probe st (versions.getD endIdx defaultVersion) with
  | (.error e, st') => (.error e, st')
  | (.ok true, st') => (.ok (none, s), st')
  | (.ok false, st') =>
    match bisect probe versions ((endIdx - s) + (s - endIdx)) endIdx s st' with
    | (.error e, st'') => (.error e, st'')
    | (.ok (inv, lv), st'') => (.ok (some inv, lv), st'')

/-- Comparator `>= v` with full minor/patch/pre, as built at the end of
`binary_search_bounds`. -/
def geComp (v : SemVersion) : Comparator :=
  ⟨.greaterEq, v.major, some v.minor, some v.patch, v.pre⟩

/-- Comparator `<= v` with full minor/patch/pre, as built at the end of
`binary_search_bounds`. -/
def leComp (v : SemVersion) : Comparator :=
  ⟨.lessEq, v.major, some v.minor, some v.patch, v.pre⟩

/-- Raw bounds construction of `binary_search_bounds` (src/resolver.rs lines
304-398): sort, locate the seed (`position(..).unwrap()`, whose panic on an
absent seed is modelled by the `none` result), run the left then the right
boundary search threading the probe state, and build the `>=`/`<=`
requirement from whichever sides are closed. -/
def raw_bounds {σ : Type} (probe : σ → SemVersion → (Except RError Bool) × σ)
    (initial_version : SemVersion) (versions0 : List SemVersion) (st : σ) :
    Option ((Except RError VersionReq) × σ) :=
  let versions := sortVersions versions0
  match versions.findIdx? (fun v => v == initial_version) with
  | none => none
  | some s =>
    match search_side probe versions 0 s st with
    | (.error e, st') => some (.error e, st')
    | (.ok (left_invalid, left_valid), st') =>
      match search_side probe versions (versions.length - 1) s st' with
      | (.error e, st'') => some (.error e, st'')
      | (.ok (right_invalid, right_valid), st'') =>
        let bounds :=
          (if left_invalid.isSome then
            [geComp (versions.getD left_valid defaultVersion)]
          else []) ++
          (if right_invalid.isSome then
            [leComp (versions.getD right_valid defaultVersion)]
          else [])
        some (.ok ⟨bounds⟩, st'')

/-- Full `binary_search_bounds`: the raw bounds, simplified against the
sorted version list (src/resolver.rs line 401). -/
def binary_search_bounds {σ : Type}
    (probe : σ → SemVersion → (Except RError Bool) × σ)
    (initial_version : SemVersion) (versions0 : List SemVersion) (st : σ) :
    Option ((Except RError VersionReq) × σ) :=
  match raw_bounds probe initial_version versions0 st with
  | none => none
  | some (.error e, st') => some (.error e, st')
  | some (.ok req, st') =>
    some (.ok (simplify_version_req req (sortVersions versions0)), st')

/-- A deterministic, error-free probe oracle, the shape assumed by the
spec for the interval searcher (the probe's verdict is a pure function of
the version). -/
def pure_probe (o : SemVersion → Bool) :
    Unit → SemVersion → (Except RError Bool) × Unit :=
  fun st v => (.ok (o v), st)

/-- Outcome of one `validator.run_check` invocation, as seen by
`validator_fn` in `resolve_package`: success, a recoverable validation
failure (`Either::Left`), or a hard infrastructure error (`Either::Right`). -/
inductive CheckOutcome where
  | ok
  | validationFail
  | hardError (e : RError)
deriving DecidableEq, Repr

/-- Probe ledger and probe counter of `resolve_package`: `old_check`
(BTreeMap from version to verdict, represented as an association list with
most recent entry first) and `comparison_count`. -/
structure ProbeState where
  oldCheck : List (SemVersion × Bool)
  comparisonCount : Nat
deriving DecidableEq, Repr

/-- Ledger lookup (`old_check.contains_key` / `old_check.get`). -/
def lookupLedger (ledger : List (SemVersion × Bool)) (v : SemVersion) :
    Option Bool :=
  match ledger.find? (fun e => e.1 == v) with
  | some e => some e.2
  | none => none

/-- The probe memoizer `validator_fn` of `resolve_package`
(src/resolver.rs lines 248-276): a ledger hit returns the recorded verdict
untouched; otherwise the counter is bumped, the 500 ms cooldown sleep runs,
the dependency is pinned and checked, and — except on a hard error — the
verdict is recorded. -/
def validator_fn (check : SemVersion → CheckOutcome) (st : ProbeState)
    (version : SemVersion) : (Except RError Bool) × ProbeState :=
  match lookupLedger st.oldCheck version with
  | some b => (.ok b, st)
  | none =>
    match check version with
    | .validationFail =>
      (.ok false, ⟨(version, false) :: st.oldCheck, st.comparisonCount + 1⟩)
    | .hardError e => (.error e, ⟨st.oldCheck, st.comparisonCount + 1⟩)
    | .ok =>
      (.ok true, ⟨(version, true) :: st.oldCheck, st.comparisonCount + 1⟩)

/-- A declared dependency (src/cargo.rs `CargoDependency`), restricted to the
fields the resolver reads. -/
structure RDependency where
  crate_name : String
  required_version : VersionReq
  git : Bool

/-- A target package: its declared dependency list. -/
structure RCargoPackage where
  dependencies : List RDependency

/-- One published version in the catalog (src/crates.rs `CrateVersion`),
restricted to the fields the resolver reads. -/
structure RCrateVersion where
  version : SemVersion
  yanked : Bool
deriving DecidableEq, Repr

/-- One catalog entry (src/crates.rs `Crate`), restricted to the fields the
resolver reads. -/
structure RCrate where
  versions : List RCrateVersion
deriving DecidableEq, Repr

/-- A `[[package]]` entry of Cargo.lock. -/
structure LockPackage where
  name : String
  version : SemVersion

/-- `BTreeMap<String, _>::insert`: keyed insert into a list kept sorted by
key, overwriting an existing binding. -/
def insertMap {α : Type} (k : String) (v : α) :
    List (String × α) → List (String × α)
  | [] => [(k, v)]
  | (k', v') :: rest =>
    if k < k' then (k, v) :: (k', v') :: rest
    else if k == k' then (k, v) :: rest
    else (k', v') :: insertMap k v rest

/-- `BTreeMap<String, _>::get`. -/
def lookupMap {α : Type} (k : String) : List (String × α) → Option α
  | [] => none
  | (k', v') :: rest => if k' == k then some v' else lookupMap k rest

/-- `Iterator::max_by_key(|v| v.version.clone())`: the greatest element by
version order, keeping the later of equal keys, as Rust does. -/
def max_by_version (l : List RCrateVersion) : Option RCrateVersion :=
  l.foldl
    (fun acc v =>
      match acc with
      | none => some v
      | some m => if versLt v.version m.version then some m else some v)
    none

/-- The pick computed (but only logged) by the final loop of
`populate_default`: the greatest catalog version satisfying the declared
requirement. -/
def latest_matching_pick (version_req : VersionReq) (krate : RCrate) :
    Option RCrateVersion :=
  max_by_version
    (krate.versions.filter (fun v => reqMatches version_req v.version))

/-- Seed selection `Resolver::populate_default` (src/resolver.rs lines
55-119).  Phase 1 records the declared requirement of every non-git
dependency; phase 2 adopts lock-file versions that satisfy the declared
requirement; the final loop of the source computes `latest_version` for the
remaining packages but only emits a debug log — it performs no insertion
into the seed map, so the returned seed map is exactly the lock-derived one.
Returns `(packages_requirements, packages)`. -/
def populate_default (targets : List RCargoPackage)
    (lock_file : Option (List LockPackage))
    (package_informations : List (String × RCrate)) :
    (List (String × VersionReq)) × (List (String × SemVersion)) :=
  let packages_requirements := targets.foldl
    (fun acc target =>
      target.dependencies.foldl
        (fun acc dep =>
          if dep.git then acc
          else insertMap dep.crate_name dep.required_version acc)
        acc)
    []
  let packages :=
    match lock_file with
    | none => []
    | some lock =>
      packages_requirements.foldl
        (fun acc e =>
          match lock.find?
              (fun p => p.name == e.1 && reqMatches e.2 p.version) with
          | some lock_pkg => insertMap e.1 lock_pkg.version acc
          | none => acc)
        []
  let _unused_catalog := package_informations
  (packages_requirements, packages)

/-- Result of a resolver code path that can also fail by panicking:
`panic` models a Rust panic (here: `BTreeMap` indexing with a missing key,
or `Option::unwrap` on `None`). -/
inductive ResolveOutcome (α : Type) where
  | ok (a : α)
  | err (msg : String)
  | panic
deriving DecidableEq, Repr

/-- One iteration of the seed-repair loop at the start of
`Resolver::resolve` (src/resolver.rs lines 125-160) for one package.
`self.packages[package_name]` panics when the seed map has no entry.  When
the seed is absent from the catalog entry (`version.is_none()`), the
`warn!` call formats `version.unwrap().version`, an unwrap of `None`
(`warn!` arguments are evaluated at the tool's default log level, which
enables warnings) — modelled as a panic.  A present-but-yanked seed is
replaced by the greatest non-yanked version matching the declared
requirement, else the greatest non-yanked version, else the loop errors. -/
def resolve_repair_step (packages_requirements : List (String × VersionReq))
    (packages : List (String × SemVersion)) (package_name : String)
    (crate_info : RCrate) : ResolveOutcome (List (String × SemVersion)) :=
  match lookupMap package_name packages with
  | none => .panic
  | some version =>
    match crate_info.versions.find? (fun v => v.version == version) with
    | none => .panic
    | some found =>
      if found.yanked then
        let candidates := crate_info.versions.filter (fun v => !v.yanked)
        match candidates with
        | [] => .err ("No available versions for package " ++ package_name)
        | _ :: _ =>
          match lookupMap package_name packages_requirements with
          | none => .panic
          | some req =>
            match max_by_version
                (candidates.filter (fun v => reqMatches req v.version)) with
            | some nv => .ok (insertMap package_name nv.version packages)
            | none =>
              match candidates.getLast? with
              | some nv => .ok (insertMap package_name nv.version packages)
              | none =>
                .err ("No available versions for package " ++ package_name)
      else .ok packages

/-- The seed-repair loop of `Resolver::resolve`, iterating
`package_informations` in map order and threading the seed map. -/
def resolve_repair_loop (packages_requirements : List (String × VersionReq)) :
    List (String × RCrate) → List (String × SemVersion) →
    ResolveOutcome (List (String × SemVersion))
  | [], packages => .ok packages
  | (name, ci) :: rest, packages =>
    match resolve_repair_step packages_requirements packages name ci with
    | .ok packages' => resolve_repair_loop packages_requirements rest packages'
    | .err e => .err e
    | .panic => .panic

/-- `Resolver::write_cargo_toml_with_resolved_versions` (src/resolver.rs
lines 212-219): calls `set_dependency_req` for every resolved requirement,
discards each call's `Result`, and returns `Ok(())`.  The validator is
abstracted as a state transformer returning the discarded `Result<(), ()>`
alongside its new state. -/
def write_cargo_toml_with_resolved_versions {τ : Type}
    (packages_requirements : List (String × VersionReq))
    (set_dependency_req : τ → String → VersionReq → (Except Unit Unit) × τ)
    (st : τ) : (Except RError Unit) × τ :=
  let final := packages_requirements.foldl
    (fun acc e => (set_dependency_req acc e.1 e.2).2) st
  (.ok (), final)

/-! ### Properties of the semver order -/

theorem identLt_irrefl (a : PreIdent) : identLt a a = false := by
  cases a with
  | num n => simp [identLt]
  | alpha s => simp [identLt]

theorem identLt_asymm {a b : PreIdent} (h : identLt a b = true) :
    identLt b a = false := by
  cases a with
  | num m =>
    cases b with
    | num n => simp [identLt] at h ⊢; omega
    | alpha t => simp [identLt]
  | alpha s =>
    cases b with
    | num n => simp [identLt] at h
    | alpha t =>
      simp [identLt] at h ⊢
      exact le_of_lt h

theorem preLexLt_irrefl : ∀ l : List PreIdent, preLexLt l l = false
  | [] => rfl
  | a :: as => by
    simp [preLexLt, identLt_irrefl, preLexLt_irrefl as]

theorem preLexLt_asymm :
    ∀ {l m : List PreIdent}, preLexLt l m = true → preLexLt m l = false
  | [], [], h => by simp [preLexLt] at h
  | [], _ :: _, _ => rfl
  | _ :: _, [], h => by simp [preLexLt] at h
  | a :: as, b :: bs, h => by
    simp only [preLexLt, Bool.or_eq_true, Bool.and_eq_true, beq_iff_eq] at h
    rcases h with h | ⟨rfl, h⟩
    · have h1 : identLt b a = false := identLt_asymm h
      have h2 : (b == a) = false := by
        refine beq_eq_false_iff_ne.mpr ?_
        intro he
        subst he
        rw [identLt_irrefl] at h
        exact Bool.false_ne_true h
      simp [preLexLt, h1, h2]
    · simp [preLexLt, identLt_irrefl, preLexLt_asymm h]

theorem preLt_irrefl : ∀ l : List PreIdent, preLt l l = false
  | [] => rfl
  | a :: as => by
    show preLexLt (a :: as) (a :: as) = false
    exact preLexLt_irrefl _

theorem preLt_asymm :
    ∀ {l m : List PreIdent}, preLt l m = true → preLt m l = false
  | [], m, h => by simp [preLt] at h
  | _ :: _, [], _ => rfl
  | a :: as, b :: bs, h => preLexLt_asymm h

theorem versLt_irrefl (a : SemVersion) : versLt a a = false := by
  simp [versLt, preLt_irrefl]

theorem versLt_asymm {a b : SemVersion} (h : versLt a b = true) :
    versLt b a = false := by
  cases hv : versLt b a
  · rfl
  · exfalso
    simp only [versLt, Bool.or_eq_true, Bool.and_eq_true, beq_iff_eq,
      decide_eq_true_eq] at h hv
    rcases h with hM | ⟨eM, h⟩ <;> rcases hv with gM | ⟨fM, g⟩
    · omega
    · omega
    · omega
    · rcases h with hm | ⟨em, h⟩ <;> rcases g with gm | ⟨fm, g⟩
      · omega
      · omega
      · omega
      · rcases h with hp | ⟨ep, h⟩ <;> rcases g with gp | ⟨fp, g⟩
        · omega
        · omega
        · omega
        · rw [preLt_asymm h] at g
          exact Bool.false_ne_true g

theorem versLt_ne {a b : SemVersion} (h : versLt a b = true) : a ≠ b := by
  intro he
  subst he
  rw [versLt_irrefl] at h
  exact Bool.false_ne_true h

/-- Sortedness predicate for the candidate lists: strictly ascending in
semver order (catalog entries hold distinct versions). -/
def StrictSorted (l : List SemVersion) : Prop :=
  l.Pairwise (fun a b => versLt a b = true)

instance (l : List SemVersion) : Decidable (StrictSorted l) :=
  inferInstanceAs (Decidable (l.Pairwise _))

theorem StrictSorted.nodup {l : List SemVersion} (h : StrictSorted l) :
    l.Nodup :=
  h.imp (fun hab => versLt_ne hab)

theorem sortVersions_eq_self :
    ∀ {l : List SemVersion}, StrictSorted l → sortVersions l = l
  | [], _ => rfl
  | a :: as, h => by
    obtain ⟨h1, h2⟩ := List.pairwise_cons.mp h
    rw [sortVersions, sortVersions_eq_self h2]
    cases as with
    | nil => rfl
    | cons b bs =>
      have hab : versLe a b = true := by
        simp [versLe, h1 b (List.mem_cons_self b bs)]
      simp [insertVersion, hab]

theorem btreeSetOf_eq_self {l : List SemVersion} (h : StrictSorted l) :
    btreeSetOf l = l := by
  rw [btreeSetOf, sortVersions_eq_self h, List.Nodup.dedup h.nodup]

theorem strictSorted_filter {l : List SemVersion} (h : StrictSorted l)
    (p : SemVersion → Bool) : StrictSorted (l.filter p) :=
  List.Pairwise.sublist (List.filter_sublist l) h

/-! ### C10, C3, C5, C9, C4 -/

/-- C10: `write_cargo_toml_with_resolved_versions` returns `Ok(())` on
every input — each `set_dependency_req` call's `Result` is discarded, so a
failed persist is never reported (and the CLI's fatal-error branch for it
can never run). -/
theorem c10_write_cargo_toml_always_ok {τ : Type}
    (packages_requirements : List (String × VersionReq))
    (set_dependency_req : τ → String → VersionReq → (Except Unit Unit) × τ)
    (st : τ) :
    (write_cargo_toml_with_resolved_versions packages_requirements
      set_dependency_req st).1 = .ok () := rfl

/-- Input of the C3 evaluation: a single non-git dependency on crate `a`
with requirement `^1`. -/
def c3Req : VersionReq := ⟨[⟨.caret, 1, none, none, []⟩]⟩

/-- Catalog entry for the C3 evaluation: `a` has the single non-yanked
version `1.2.3`. -/
def c3Crate : RCrate := ⟨[⟨⟨1, 2, 3, []⟩, false⟩]⟩

/-- Declared targets for the C3 evaluation. -/
def c3Targets : List RCargoPackage := [⟨[⟨"a", c3Req, false⟩]⟩]

/-- C3 (code bug): with no lock file, `populate_default` records the
declared requirement of dependency `a`, and the greatest catalog version
satisfying it exists (`1.2.3`), yet the returned seed map is empty — the
final loop of `populate_default` only logs its pick and never inserts it,
while the spec mandates that the pick populate the seed map. -/
theorem c3_populate_default_drops_pick :
    (populate_default c3Targets none [("a", c3Crate)]).2 = [] ∧
    (populate_default c3Targets none [("a", c3Crate)]).1 = [("a", c3Req)] ∧
    latest_matching_pick c3Req c3Crate = some ⟨⟨1, 2, 3, []⟩, false⟩ := by
  refine ⟨rfl, rfl, ?_⟩
  decide

/-- Catalog entry for the C5 evaluation: `a` has the single non-yanked
version `1.0.0`; the seed map holds `2.0.0`, which is absent from it. -/
def c5Crate : RCrate := ⟨[⟨⟨1, 0, 0, []⟩, false⟩]⟩

/-- C5 (code bug): a seed (`2.0.0`) missing from the catalog entry makes the
repair pass of `Resolver::resolve` panic — the `warn!` call formats
`version.unwrap().version` right after `version.is_none()` was established —
although the repair the claim (and the spec) describe is possible: the
greatest non-yanked version `1.0.0` exists. -/
theorem c5_resolve_panics_on_missing_seed :
    resolve_repair_step [("a", star)] [("a", ⟨2, 0, 0, []⟩)] "a" c5Crate =
      .panic ∧
    max_by_version (c5Crate.versions.filter (fun v => !v.yanked)) =
      some ⟨⟨1, 0, 0, []⟩, false⟩ := by
  constructor
  · decide
  · decide

/-- C9: if the seed-repair loop of `Resolver::resolve` reaches a package
whose name has no entry in the seed map — which happens for every declared
dependency not matched in Cargo.lock, since `populate_default` never stores
its fallback pick — the `self.packages[package_name]` indexing panics
instead of returning an error. -/
theorem c9_resolve_panics_on_missing_package
    (packages_requirements : List (String × VersionReq))
    (pre post : List (String × RCrate)) (name : String) (ci : RCrate)
    (packages st' : List (String × SemVersion))
    (h1 : resolve_repair_loop packages_requirements pre packages = .ok st')
    (h2 : lookupMap name st' = none) :
    resolve_repair_loop packages_requirements (pre ++ (name, ci) :: post)
      packages = .panic := by
  induction pre generalizing packages with
  | nil =>
    simp only [resolve_repair_loop, ResolveOutcome.ok.injEq] at h1
    subst h1
    simp only [List.nil_append, resolve_repair_loop, resolve_repair_step, h2]
  | cons hd rest ih =>
    obtain ⟨n0, c0⟩ := hd
    rw [List.cons_append]
    rw [resolve_repair_loop] at h1 ⊢
    rcases hstep : resolve_repair_step packages_requirements packages n0 c0 with
      p' | e | _
    · rw [hstep] at h1
      exact ih p' h1
    · simp [hstep] at h1
    · simp [hstep] at h1

/-- Witness for C9: with an empty seed map, the loop panics on its first
package. -/
theorem c9_witness :
    resolve_repair_loop [] [("a", (⟨[]⟩ : RCrate))] [] = .panic :=
  c9_resolve_panics_on_missing_package [] [] [] "a" ⟨[]⟩ [] [] rfl rfl

/-- C4: the probe memoizer `validator_fn` invokes the underlying check at
most once per version: a ledger hit returns the recorded verdict with the
state (counter included) unchanged — so no pin, no cooldown sleep, no check —
while a first query runs the check once (counter + 1) and records the
verdict, which every later query of the same version then finds in the
ledger. -/
theorem c4_probe_memoizer (check : SemVersion → CheckOutcome) :
    (∀ st v b, lookupLedger st.oldCheck v = some b →
      validator_fn check st v = (.ok b, st)) ∧
    (∀ st v, lookupLedger st.oldCheck v = none → check v = .ok →
      validator_fn check st v =
        (.ok true, ⟨(v, true) :: st.oldCheck, st.comparisonCount + 1⟩)) ∧
    (∀ st v, lookupLedger st.oldCheck v = none → check v = .validationFail →
      validator_fn check st v =
        (.ok false, ⟨(v, false) :: st.oldCheck, st.comparisonCount + 1⟩)) ∧
    (∀ (l : List (SemVersion × Bool)) v b, lookupLedger ((v, b) :: l) v = some b) := by
  refine ⟨?_, ?_, ?_, ?_⟩
  · intro st v b h
    simp [validator_fn, h]
  · intro st v h hc
    simp [validator_fn, h, hc]
  · intro st v h hc
    simp [validator_fn, h, hc]
  · intro l v b
    simp [lookupLedger, List.find?]

/-- Version used by several concrete evaluations. -/
def v100 : SemVersion := ⟨1, 0, 0, []⟩

/-- Check function used by the C4 witness. -/
def c4Check : SemVersion → CheckOutcome := fun _ => .ok

/-- Witness for C4: the first query of `1.0.0` runs the check and records
the verdict; the second query returns it with the state untouched. -/
theorem c4_witness :
    validator_fn c4Check ⟨[], 0⟩ v100 = (.ok true, ⟨[(v100, true)], 1⟩) ∧
    validator_fn c4Check ⟨[(v100, true)], 1⟩ v100 =
      (.ok true, ⟨[(v100, true)], 1⟩) :=
  ⟨(c4_probe_memoizer c4Check).2.1 ⟨[], 0⟩ v100 (by decide) rfl,
   (c4_probe_memoizer c4Check).1 ⟨[(v100, true)], 1⟩ v100 true (by decide)⟩

/-! ### C8: hard errors are surfaced unchanged and never recorded -/

theorem validator_fn_error {check : SemVersion → CheckOutcome}
    {st : ProbeState} {v : SemVersion} {e : RError} {st' : ProbeState}
    (h : validator_fn check st v = (.error e, st')) :
    check v = .hardError e ∧ st'.oldCheck = st.oldCheck ∧
      lookupLedger st'.oldCheck v = none := by
  unfold validator_fn at h
  rcases hl : lookupLedger st.oldCheck v with _ | b
  · rw [hl] at h
    rcases hc : check v with _ | _ | e'
    · rw [hc] at h
      simp at h
    · rw [hc] at h
      simp at h
    · rw [hc] at h
      simp only [Prod.mk.injEq, Except.error.injEq] at h
      obtain ⟨he, hst⟩ := h
      refine ⟨?_, ?_, ?_⟩
      · rw [he]
      · rw [← hst]
      · rw [← hst]
        exact hl
  · rw [hl] at h
    simp at h

theorem bisect_error_source {check : SemVersion → CheckOutcome}
    {versions : List SemVersion} :
    ∀ (fuel inv lv : Nat) (st : ProbeState) (e : RError) (st' : ProbeState),
      bisect (validator_fn check) versions fuel inv lv st = (.error e, st') →
      ∃ v, check v = .hardError e ∧ lookupLedger st'.oldCheck v = none := by
  intro fuel
  induction fuel with
  | zero =>
    intro inv lv st e st' h
    rw [bisect] at h
    split at h
    · simp at h
    · simp at h
  | succ f ih =>
    intro inv lv st e st' h
    rw [bisect] at h
    split at h
    · simp at h
    · rcases hp : validator_fn check st
        (versions.getD ((inv + lv) / 2) defaultVersion) with ⟨res, st₂⟩
      rw [hp] at h
      rcases res with e' | b
      · simp only [Prod.mk.injEq, Except.error.injEq] at h
        obtain ⟨he, hst⟩ := h
        obtain ⟨hc, _, hnone⟩ := validator_fn_error hp
        refine ⟨versions.getD ((inv + lv) / 2) defaultVersion, ?_, ?_⟩
        · rw [hc, he]
        · rw [← hst]
          exact hnone
      · cases b
        · exact ih _ _ _ _ _ h
        · exact ih _ _ _ _ _ h

theorem search_side_error_source {check : SemVersion → CheckOutcome}
    {versions : List SemVersion} {endIdx s : Nat} {st : ProbeState}
    {e : RError} {st' : ProbeState}
    (h : search_side (validator_fn check) versions endIdx s st =
      (.error e, st')) :
    ∃ v, check v = .hardError e ∧ lookupLedger st'.oldCheck v = none := by
  unfold search_side at h
  rcases hp : validator_fn check st (versions.getD endIdx defaultVersion) with
    ⟨res, st₂⟩
  rw [hp] at h
  rcases res with e' | b
  · simp only [Prod.mk.injEq, Except.error.injEq] at h
    obtain ⟨he, hst⟩ := h
    obtain ⟨hc, _, hnone⟩ := validator_fn_error hp
    refine ⟨versions.getD endIdx defaultVersion, ?_, ?_⟩
    · rw [hc, he]
    · rw [← hst]
      exact hnone
  · cases b
    · rcases hb : bisect (validator_fn check) versions
        ((endIdx - s) + (s - endIdx)) endIdx s st₂ with ⟨bres, st₃⟩
      simp only [hb] at h
      rcases bres with e'' | ⟨binv, blv⟩
      · simp only [Prod.mk.injEq, Except.error.injEq] at h
        obtain ⟨he, hst⟩ := h
        obtain ⟨v, hcv, hlv⟩ := bisect_error_source _ _ _ _ _ _ hb
        refine ⟨v, ?_, ?_⟩
        · rw [hcv, he]
        · rw [← hst]
          exact hlv
      · simp at h
    · simp at h

theorem raw_bounds_error_source {check : SemVersion → CheckOutcome}
    {initial : SemVersion} {versions : List SemVersion} {st : ProbeState}
    {e : RError} {st' : ProbeState}
    (h : raw_bounds (validator_fn check) initial versions st =
      some (.error e, st')) :
    ∃ v, check v = .hardError e ∧ lookupLedger st'.oldCheck v = none := by
  simp only [raw_bounds] at h
  rcases hf : (sortVersions versions).findIdx? (fun v => v == initial) with
    _ | s
  · simp only [hf] at h
    exact Option.noConfusion h
  · simp only [hf] at h
    rcases h1 : search_side (validator_fn check) (sortVersions versions) 0 s st
      with ⟨res1, st1⟩
    simp only [h1] at h
    rcases res1 with e1 | ⟨li, lv⟩
    · simp only [Option.some.injEq, Prod.mk.injEq, Except.error.injEq] at h
      obtain ⟨he, hst⟩ := h
      obtain ⟨v, hcv, hlv⟩ := search_side_error_source h1
      refine ⟨v, ?_, ?_⟩
      · rw [hcv, he]
      · rw [← hst]
        exact hlv
    · rcases h2 : search_side (validator_fn check) (sortVersions versions)
        ((sortVersions versions).length - 1) s st1 with ⟨res2, st2⟩
      simp only [h2] at h
      rcases res2 with e2 | ⟨ri, rv⟩
      · simp only [Option.some.injEq, Prod.mk.injEq, Except.error.injEq] at h
        obtain ⟨he, hst⟩ := h
        obtain ⟨v, hcv, hlv⟩ := search_side_error_source h2
        refine ⟨v, ?_, ?_⟩
        · rw [hcv, he]
        · rw [← hst]
          exact hlv
      · simp at h

/-- C8: when a probe's check hits a hard (infrastructure) error, the
memoizer surfaces exactly that error without recording any verdict (the
counter — and its preceding cooldown sleep — run, but the ledger is left
untouched), and any run of `binary_search_bounds` that returns an error
returns a hard error of the underlying check for a version that has no
verdict in the final ledger; the search (and with it the resolver run,
which propagates the `Err` with `?`) aborts with it. -/
theorem c8_hard_error_surfaced (check : SemVersion → CheckOutcome) :
    (∀ st v e, lookupLedger st.oldCheck v = none → check v = .hardError e →
      validator_fn check st v =
        (.error e, ⟨st.oldCheck, st.comparisonCount + 1⟩)) ∧
    (∀ initial versions st e st',
      binary_search_bounds (validator_fn check) initial versions st =
        some (.error e, st') →
      ∃ v, check v = .hardError e ∧ lookupLedger st'.oldCheck v = none) := by
  constructor
  · intro st v e h hc
    simp [validator_fn, h, hc]
  · intro initial versions st e st' h
    unfold binary_search_bounds at h
    rcases hr : raw_bounds (validator_fn check) initial versions st with
      _ | ⟨res, st₂⟩
    · simp only [hr] at h
      exact Option.noConfusion h
    · simp only [hr] at h
      rcases res with e' | req
      · simp only [Option.some.injEq, Prod.mk.injEq, Except.error.injEq] at h
        obtain ⟨he, hst⟩ := h
        obtain ⟨v, hcv, hlv⟩ := raw_bounds_error_source hr
        refine ⟨v, ?_, ?_⟩
        · rw [hcv, he]
        · rw [← hst]
          exact hlv
      · simp at h

/-- Check function used by the C8 witness: every check fails with the same
hard infrastructure error. -/
def c8Check : SemVersion → CheckOutcome := fun _ => .hardError (.other "io")

/-- Witness for C8: probing `1.0.0` with an empty ledger surfaces the hard
error, bumps only the counter, and a one-version search returns that error
with the probed version still unrecorded. -/
theorem c8_witness :
    validator_fn c8Check ⟨[], 0⟩ v100 = (.error (.other "io"), ⟨[], 1⟩) ∧
    (∃ v, c8Check v = .hardError (.other "io") ∧
      lookupLedger (([] : List (SemVersion × Bool))) v = none) :=
  ⟨(c8_hard_error_surfaced c8Check).1 ⟨[], 0⟩ v100 (.other "io")
      (by decide) rfl,
   (c8_hard_error_surfaced c8Check).2 v100 [v100] ⟨[], 0⟩ (.other "io")
      ⟨[], 1⟩ (by decide)⟩

/-! ### C6: probe budget of one interval search -/

theorem sortVersions_length :
    ∀ l : List SemVersion, (sortVersions l).length = l.length := by
  have hins : ∀ (v : SemVersion) (l : List SemVersion),
      (insertVersion v l).length = l.length + 1 := by
    intro v l
    induction l with
    | nil => rfl
    | cons w ws ih =>
      rw [insertVersion]
      split
      · rfl
      · simp [ih]
  intro l
  induction l with
  | nil => rfl
  | cons v vs ih => rw [sortVersions, hins, ih, List.length_cons]

theorem validator_fn_count (check : SemVersion → CheckOutcome)
    (st : ProbeState) (v : SemVersion) :
    ((validator_fn check st v).2).comparisonCount ≤ st.comparisonCount + 1 := by
  unfold validator_fn
  rcases lookupLedger st.oldCheck v with _ | b
  · rcases check v with _ | _ | e <;> simp
  · simp

theorem clog_half_step {g g' : Nat} (hg : 2 ≤ g) (h : g' ≤ (g + 1) / 2) :
    Nat.clog 2 g' + 1 ≤ Nat.clog 2 g := by
  rw [Nat.clog_of_two_le (by norm_num) hg]
  have hx : g + 2 - 1 = g + 1 := by omega
  rw [hx]
  have := Nat.clog_mono_right 2 h
  omega

theorem bisect_count (check : SemVersion → CheckOutcome)
    (versions : List SemVersion) :
    ∀ (fuel inv lv : Nat) (st : ProbeState),
      ((bisect (validator_fn check) versions fuel inv lv st).2).comparisonCount
        ≤ st.comparisonCount + Nat.clog 2 ((inv - lv) + (lv - inv)) := by
  intro fuel
  induction fuel with
  | zero =>
    intro inv lv st
    rw [bisect]
    split
    · simp
    · simp
  | succ f ih =>
    intro inv lv st
    rw [bisect]
    split
    · simp
    · rename_i hcond
      have hgap : 2 ≤ (inv - lv) + (lv - inv) := by
        simp only [not_or] at hcond
        omega
      rcases hp : validator_fn check st
        (versions.getD ((inv + lv) / 2) defaultVersion) with ⟨res, st₂⟩
      have hcnt : st₂.comparisonCount ≤ st.comparisonCount + 1 := by
        have := validator_fn_count check st
          (versions.getD ((inv + lv) / 2) defaultVersion)
        rw [hp] at this
        exact this
      have hone : 0 < Nat.clog 2 ((inv - lv) + (lv - inv)) :=
        Nat.clog_pos (by norm_num) hgap
      rcases res with e | b
      · simp only
        omega
      · cases b
        · have hrec := ih ((inv + lv) / 2) lv st₂
          have hhalf : Nat.clog 2 ((inv + lv) / 2 - lv + (lv - (inv + lv) / 2))
              + 1 ≤ Nat.clog 2 ((inv - lv) + (lv - inv)) := by
            apply clog_half_step hgap
            simp only [not_or] at hcond
            omega
          simp only
          omega
        · have hrec := ih inv ((inv + lv) / 2) st₂
          have hhalf : Nat.clog 2 (inv - (inv + lv) / 2 + ((inv + lv) / 2 - inv))
              + 1 ≤ Nat.clog 2 ((inv - lv) + (lv - inv)) := by
            apply clog_half_step hgap
            simp only [not_or] at hcond
            omega
          simp only
          omega

theorem search_side_count (check : SemVersion → CheckOutcome)
    (versions : List SemVersion) (endIdx s : Nat) (st : ProbeState) :
    ((search_side (validator_fn check) versions endIdx s st).2).comparisonCount
      ≤ st.comparisonCount + 1 + Nat.clog 2 ((endIdx - s) + (s - endIdx)) := by
  unfold search_side
  rcases hp : validator_fn check st (versions.getD endIdx defaultVersion) with
    ⟨res, st₂⟩
  have hcnt : st₂.comparisonCount ≤ st.comparisonCount + 1 := by
    have := validator_fn_count check st (versions.getD endIdx defaultVersion)
    rw [hp] at this
    exact this
  rcases res with e | b
  · simp only
    omega
  · cases b
    · have hbc := bisect_count check versions ((endIdx - s) + (s - endIdx))
        endIdx s st₂
      rcases hb : bisect (validator_fn check) versions
        ((endIdx - s) + (s - endIdx)) endIdx s st₂ with ⟨bres, st₃⟩
      rw [hb] at hbc
      simp only [hb]
      rcases bres with e | ⟨binv, blv⟩
      · show st₃.comparisonCount ≤ _
        dsimp only at hbc
        omega
      · show st₃.comparisonCount ≤ _
        dsimp only at hbc
        omega
    · show st₂.comparisonCount ≤ _
      omega

theorem raw_bounds_count (check : SemVersion → CheckOutcome)
    (initial : SemVersion) (versions0 : List SemVersion) (st : ProbeState)
    (res : Except RError VersionReq) (st' : ProbeState)
    (h : raw_bounds (validator_fn check) initial versions0 st =
      some (res, st')) :
    st'.comparisonCount ≤
      st.comparisonCount + 2 * Nat.clog 2 (versions0.length + 1) + 2 := by
  simp only [raw_bounds] at h
  rcases hf : (sortVersions versions0).findIdx? (fun v => v == initial) with
    _ | s
  · simp only [hf] at h
    exact Option.noConfusion h
  · simp only [hf] at h
    have hs : s < versions0.length := by
      obtain ⟨hlt, -, -⟩ := List.findIdx?_eq_some_iff_getElem.mp hf
      rwa [sortVersions_length] at hlt
    have hmono1 : Nat.clog 2 ((0 - s) + (s - 0)) ≤
        Nat.clog 2 (versions0.length + 1) :=
      Nat.clog_mono_right 2 (by omega)
    have hmono2 : Nat.clog 2 (((sortVersions versions0).length - 1 - s) +
        (s - ((sortVersions versions0).length - 1))) ≤
        Nat.clog 2 (versions0.length + 1) := by
      apply Nat.clog_mono_right 2
      rw [sortVersions_length]
      omega
    have hc1 := search_side_count check (sortVersions versions0) 0 s st
    rcases h1 : search_side (validator_fn check) (sortVersions versions0) 0 s st
      with ⟨res1, st1⟩
    rw [h1] at hc1
    simp only [h1] at h
    rcases res1 with e1 | ⟨li, lv⟩
    · simp only [Option.some.injEq, Prod.mk.injEq] at h
      obtain ⟨-, hst⟩ := h
      rw [← hst]
      simp only at hc1
      omega
    · have hc2 := search_side_count check (sortVersions versions0)
        ((sortVersions versions0).length - 1) s st1
      rcases h2 : search_side (validator_fn check) (sortVersions versions0)
        ((sortVersions versions0).length - 1) s st1 with ⟨res2, st2⟩
      rw [h2] at hc2
      simp only [h2] at h
      rcases res2 with e2 | ⟨ri, rv⟩
      · simp only [Option.some.injEq, Prod.mk.injEq] at h
        obtain ⟨-, hst⟩ := h
        rw [← hst]
        simp only at hc1 hc2
        omega
      · simp only [Option.some.injEq, Prod.mk.injEq] at h
        obtain ⟨-, hst⟩ := h
        rw [← hst]
        simp only at hc1 hc2
        omega

/-- C6: one interval search over a list of `n` non-yanked candidate versions
issues at most `2 * ceil(log2 (n + 1)) + 2` validator invocations, for every
probe oracle — the probe counter of `resolve_package` (which counts exactly
the non-memoized probes, each preceded by the cooldown) ends at or below
that bound whether the search succeeds or aborts. -/
theorem c6_probe_budget (check : SemVersion → CheckOutcome)
    (initial : SemVersion) (versions0 : List SemVersion)
    (res : Except RError VersionReq) (st' : ProbeState)
    (h : binary_search_bounds (validator_fn check) initial versions0 ⟨[], 0⟩ =
      some (res, st')) :
    st'.comparisonCount ≤ 2 * Nat.clog 2 (versions0.length + 1) + 2 := by
  unfold binary_search_bounds at h
  rcases hr : raw_bounds (validator_fn check) initial versions0 ⟨[], 0⟩ with
    _ | ⟨rres, st₂⟩
  · simp only [hr] at h
    exact Option.noConfusion h
  · simp only [hr] at h
    rcases rres with e | req
    · simp only [Option.some.injEq, Prod.mk.injEq] at h
      obtain ⟨-, hst⟩ := h
      have := raw_bounds_count check initial versions0 ⟨[], 0⟩ (.error e) st₂ hr
      rw [← hst]
      simpa using this
    · simp only [Option.some.injEq, Prod.mk.injEq] at h
      obtain ⟨-, hst⟩ := h
      have := raw_bounds_count check initial versions0 ⟨[], 0⟩ (.ok req) st₂ hr
      rw [← hst]
      simpa using this

/-- Oracle and candidate list for the C6 witness. -/
def c6Versions : List SemVersion :=
  [⟨1, 0, 0, []⟩, ⟨1, 1, 0, []⟩, ⟨1, 2, 0, []⟩, ⟨2, 0, 0, []⟩]

/-- Check function for the C6 witness: rejects `2.0.0`, accepts the rest. -/
def c6Check : SemVersion → CheckOutcome :=
  fun v => if v == ⟨2, 0, 0, []⟩ then .validationFail else .ok

/-- Witness for C6: a four-version search with a probe oracle that rejects
`2.0.0` stays within the budget `2 * ceil(log2 5) + 2 = 8`. -/
theorem c6_witness :
    ∃ res st',
      binary_search_bounds (validator_fn c6Check) ⟨1, 1, 0, []⟩ c6Versions
        ⟨[], 0⟩ = some (res, st') ∧
      st'.comparisonCount ≤ 2 * Nat.clog 2 (c6Versions.length + 1) + 2 := by
  have hEq : binary_search_bounds (validator_fn c6Check) ⟨1, 1, 0, []⟩
      c6Versions ⟨[], 0⟩ = some (.ok ⟨[⟨.caret, 1, none, none, []⟩]⟩,
        ⟨[(⟨1, 2, 0, []⟩, true), (⟨2, 0, 0, []⟩, false),
          (⟨1, 0, 0, []⟩, true)], 3⟩) := by decide
  exact ⟨_, _, hEq,
    c6_probe_budget c6Check ⟨1, 1, 0, []⟩ c6Versions _ _ hEq⟩

/-! ### C7: the single-candidate case -/

/-- C7 counterexample: with exactly one candidate version (necessarily the
seed, here `1.0.0`, with every probe passing) the searcher does NOT emit the
exact-equality requirement `=1.0.0` — both boundary searches leave their
invalid side unset, the raw requirement is empty, and the simplifier turns
it into the universal `*` requirement. -/
theorem c7_counterexample :
    binary_search_bounds (pure_probe (fun _ => true)) v100 [v100] () =
      some (.ok star, ()) ∧
    star ≠ (⟨[⟨.exact, 1, some 0, some 0, []⟩]⟩ : VersionReq) := by
  constructor
  · decide
  · decide

/-- C7 as amended: when the candidate list holds exactly one version and the
seed (that version) passes its probe, the searcher emits the universal `*`
requirement. -/
theorem c7_amended_single_candidate_star (v : SemVersion)
    (o : SemVersion → Bool) (h : o v = true) :
    binary_search_bounds (pure_probe o) v [v] () = some (.ok star, ()) := by
  have hsort : sortVersions [v] = [v] := rfl
  have hfind : ([v] : List SemVersion).findIdx? (fun x => x == v) = some 0 := by
    simp [List.findIdx?_cons]
  simp [binary_search_bounds, raw_bounds, hsort, hfind, search_side,
    pure_probe, h, simplify_version_req, star]

/-- Witness for the amended C7 theorem at a concrete input. -/
theorem c7_amended_witness :
    binary_search_bounds (pure_probe (fun _ => true)) ⟨2, 0, 0, []⟩
      [⟨2, 0, 0, []⟩] () = some (.ok star, ()) :=
  c7_amended_single_candidate_star ⟨2, 0, 0, []⟩ (fun _ => true) rfl

/-! ### Comparator-matching lemmas -/

theorem bool_ext {a b : Bool} (h : a = true ↔ b = true) : a = b := by
  cases a <;> cases b <;> simp_all

theorem matchesExact_of_full (o : ReqOp) (w u : SemVersion) :
    matchesExact ⟨o, w.major, some w.minor, some w.patch, w.pre⟩ u =
      (u == w) := by
  rcases u with ⟨a1, a2, a3, a4⟩
  rcases w with ⟨b1, b2, b3, b4⟩
  apply bool_ext
  simp [matchesExact, SemVersion.mk.injEq]
  tauto

theorem matchesGreater_of_lt {w u : SemVersion} (h : versLt u w = true) :
    matchesGreater (geComp w) u = false := by
  simp only [versLt, Bool.or_eq_true, Bool.and_eq_true, beq_iff_eq,
    decide_eq_true_eq] at h
  simp only [matchesGreater, geComp]
  split_ifs with h1 h2 h3
  all_goals simp only [bne_iff_ne, ne_eq, not_not, Bool.not_eq_true] at h1
  · simp only [decide_eq_false_iff_not, not_lt]
    rcases h with h | ⟨e1, h⟩
    · omega
    · omega
  · simp only [bne_iff_ne, ne_eq] at h2
    simp only [decide_eq_false_iff_not, not_lt]
    rcases h with h | ⟨e1, h⟩
    · omega
    · rcases h with h | ⟨e2, h⟩ <;> omega
  · simp only [bne_iff_ne, ne_eq, not_not, Bool.not_eq_true] at h2
    simp only [bne_iff_ne, ne_eq] at h3
    simp only [decide_eq_false_iff_not, not_lt]
    rcases h with h | ⟨e1, h⟩
    · omega
    · rcases h with h | ⟨e2, h⟩
      · omega
      · rcases h with h | ⟨e3, h⟩ <;> omega
  · simp only [bne_iff_ne, ne_eq, not_not, Bool.not_eq_true] at h2 h3
    rcases h with h | ⟨e1, h⟩
    · omega
    · rcases h with h | ⟨e2, h⟩
      · omega
      · rcases h with h | ⟨e3, h⟩
        · omega
        · exact preLt_asymm h

theorem matchesLess_of_gt {w u : SemVersion} (h : versLt w u = true) :
    matchesLess (leComp w) u = false := by
  simp only [versLt, Bool.or_eq_true, Bool.and_eq_true, beq_iff_eq,
    decide_eq_true_eq] at h
  simp only [matchesLess, leComp]
  split_ifs with h1 h2 h3
  all_goals simp only [bne_iff_ne, ne_eq, not_not, Bool.not_eq_true] at h1
  · simp only [decide_eq_false_iff_not, not_lt]
    rcases h with h | ⟨e1, h⟩
    · omega
    · omega
  · simp only [bne_iff_ne, ne_eq] at h2
    simp only [decide_eq_false_iff_not, not_lt]
    rcases h with h | ⟨e1, h⟩
    · omega
    · rcases h with h | ⟨e2, h⟩ <;> omega
  · simp only [bne_iff_ne, ne_eq, not_not, Bool.not_eq_true] at h2
    simp only [bne_iff_ne, ne_eq] at h3
    simp only [decide_eq_false_iff_not, not_lt]
    rcases h with h | ⟨e1, h⟩
    · omega
    · rcases h with h | ⟨e2, h⟩
      · omega
      · rcases h with h | ⟨e3, h⟩ <;> omega
  · simp only [bne_iff_ne, ne_eq, not_not, Bool.not_eq_true] at h2 h3
    rcases h with h | ⟨e1, h⟩
    · omega
    · rcases h with h | ⟨e2, h⟩
      · omega
      · rcases h with h | ⟨e3, h⟩
        · omega
        · exact preLt_asymm h

theorem reqMatches_exact (w u : SemVersion) :
    reqMatches ⟨[⟨.exact, w.major, some w.minor, some w.patch, w.pre⟩]⟩ u =
      (u == w) := by
  by_cases h : u = w
  · subst h
    have h1 : matchesExact
        ⟨ReqOp.exact, u.major, some u.minor, some u.patch, u.pre⟩ u = true := by
      rw [matchesExact_of_full]
      exact beq_self_eq_true u
    simp only [reqMatches, List.all_cons, List.all_nil, matchesImpl, h1,
      Bool.and_true, List.any_cons, List.any_nil, preIsCompatible,
      beq_self_eq_true, Bool.true_and, Bool.or_false, beq_self_eq_true]
    cases hpre : u.pre <;> simp [List.isEmpty]
  · have h1 : (u == w) = false := beq_eq_false_iff_ne.mpr h
    have h2 : matchesExact
        ⟨ReqOp.exact, w.major, some w.minor, some w.patch, w.pre⟩ u = false := by
      rw [matchesExact_of_full]
      exact h1
    simp [reqMatches, matchesImpl, h2, h1]

theorem all_false_of_mem {α : Type} {p : α → Bool} {l : List α} {x : α}
    (hx : x ∈ l) (hpx : p x = false) : l.all p = false := by
  cases hall : l.all p
  · rfl
  · rw [List.all_eq_true] at hall
    rw [hall x hx] at hpx
    exact absurd hpx (by simp)

theorem reqMatches_false_of_comparator {req : VersionReq} {u : SemVersion}
    {cmp : Comparator} (hm : cmp ∈ req.comparators)
    (hf : matchesImpl cmp u = false) : reqMatches req u = false := by
  unfold reqMatches
  rw [all_false_of_mem hm hf]
  rfl

theorem filter_beq_single {V : List SemVersion} (hnd : V.Nodup)
    {v : SemVersion} (hv : v ∈ V) :
    V.filter (fun u => u == v) = [v] := by
  induction V with
  | nil => cases hv
  | cons a rest ih =>
    obtain ⟨hna, hndr⟩ := List.nodup_cons.mp hnd
    rcases List.mem_cons.mp hv with rfl | hv'
    · have hrest : rest.filter (fun u => u == v) = [] := by
        rw [List.filter_eq_nil_iff]
        intro u hu
        simp only [beq_iff_eq]
        intro he
        subst he
        exact hna hu
      simp [List.filter_cons, hrest]
    · have hne : (a == v) = false := by
        refine beq_eq_false_iff_ne.mpr ?_
        rintro rfl
        exact hna hv'
      rw [List.filter_cons]
      simp only [hne, Bool.false_eq_true, if_neg, ite_false]
      exact ih hndr hv'

/-! ### The simplifier preserves the matched subset -/

theorem simplify_preserves_of_unmatched {R : VersionReq} {V : List SemVersion}
    (hsort : StrictSorted V)
    (hner : R.comparators ≠ [] → ∃ u ∈ V, reqMatches R u = false) :
    V.filter (fun v => reqMatches (simplify_version_req R V) v) =
      V.filter (fun v => reqMatches R v) := by
  by_cases hemp : R.comparators = []
  · have hR : R = star := by
      rcases R with ⟨cs⟩
      simp only at hemp
      rw [star, hemp]
    have hs : simplify_version_req R V = star := by
      rw [hR]
      simp [simplify_version_req, star]
    rw [hs, hR]
  · obtain ⟨u, hu, hum⟩ := hner hemp
    have hall : V.all (fun v => reqMatches R v) = false := all_false_of_mem hu hum
    have hie : R.comparators.isEmpty = false := by
      rcases hc : R.comparators with _ | ⟨c, cs⟩
      · exact absurd hc hemp
      · rfl
    have hcond : (R.comparators.isEmpty || V.all (fun v => reqMatches R v)) = false := by
      rw [hie, hall]
      rfl
    have hMeq : btreeSetOf (V.filter (fun v => reqMatches R v)) =
        V.filter (fun v => reqMatches R v) :=
      btreeSetOf_eq_self (strictSorted_filter hsort _)
    simp only [simplify_version_req, hcond, Bool.false_eq_true, if_false, hMeq]
    by_cases hlen : (V.filter (fun v => reqMatches R v)).length = 1
    · have hbeq : (((V.filter (fun v => reqMatches R v)).length == 1) = true) := by
        rw [hlen]
        rfl
      rw [if_pos hbeq]
      obtain ⟨v, hv⟩ := List.length_eq_one.mp hlen
      rw [hv]
      simp only [List.head?]
      have hvV : v ∈ V := by
        have hm : v ∈ V.filter (fun v => reqMatches R v) := by
          rw [hv]
          exact List.mem_singleton_self v
        exact List.mem_of_mem_filter hm
      calc V.filter (fun u => reqMatches
            ⟨[⟨.exact, v.major, some v.minor, some v.patch, v.pre⟩]⟩ u)
          = V.filter (fun u => u == v) :=
            List.filter_congr (fun u hu => reqMatches_exact v u)
        _ = [v] := filter_beq_single hsort.nodup hvV
    · have hbeq : ¬(((V.filter (fun v => reqMatches R v)).length == 1) = true) := by
        simp [hlen]
      rw [if_neg hbeq]
      rcases hc : R.comparators with _ | ⟨c0, cs⟩
      · exact absurd hc hemp
      · simp only [List.head?]
        by_cases hp1 : (btreeSetOf (V.filter (fun v => reqMatches
            ⟨[⟨.caret, c0.major, none, none, []⟩]⟩ v)) ==
            V.filter (fun v => reqMatches R v)) = true
        · rw [if_pos hp1]
          have he1 := beq_iff_eq.mp hp1
          rwa [btreeSetOf_eq_self (strictSorted_filter hsort _)] at he1
        · rw [if_neg hp1]
          by_cases hp2 : (btreeSetOf (V.filter (fun v => reqMatches
              ⟨[⟨.caret, c0.major, some (c0.minor.getD 0), none, []⟩]⟩ v)) ==
              V.filter (fun v => reqMatches R v)) = true
          · rw [if_pos hp2]
            have he2 := beq_iff_eq.mp hp2
            rwa [btreeSetOf_eq_self (strictSorted_filter hsort _)] at he2
          · rw [if_neg hp2]
            by_cases hp3 : (btreeSetOf (V.filter (fun v => reqMatches
                ⟨[⟨.caret, c0.major, some (c0.minor.getD 0),
                  some (c0.patch.getD 0), []⟩]⟩ v)) ==
                V.filter (fun v => reqMatches R v)) = true
            · rw [if_pos hp3]
              have he3 := beq_iff_eq.mp hp3
              rwa [btreeSetOf_eq_self (strictSorted_filter hsort _)] at he3
            · rw [if_neg hp3]

/-! ### Behaviour of the bisection loop under a pure oracle -/

theorem bisect_break {σ : Type} (probe : σ → SemVersion → (Except RError Bool) × σ)
    (versions : List SemVersion) (fuel inv lv : Nat) (st : σ)
    (hcond : (inv + lv) / 2 = lv ∨ (inv + lv) / 2 = inv) :
    bisect probe versions fuel inv lv st = (.ok (inv, lv), st) := by
  rw [bisect.eq_def]
  exact if_pos hcond

theorem bisect_step {σ : Type} (probe : σ → SemVersion → (Except RError Bool) × σ)
    (versions : List SemVersion) (f inv lv : Nat) (st : σ)
    (hcond : ¬((inv + lv) / 2 = lv ∨ (inv + lv) / 2 = inv)) :
    bisect probe versions (f + 1) inv lv st =
      match probe st (versions.getD ((inv + lv) / 2) defaultVersion) with
      | (.error e, st') => (.error e, st')
      | (.ok true, st') => bisect probe versions f inv ((inv + lv) / 2) st'
      | (.ok false, st') => bisect probe versions f ((inv + lv) / 2) lv st' := by
  rw [bisect.eq_def]
  exact if_neg hcond

theorem bisect_pure_spec (o : SemVersion → Bool) (V : List SemVersion) :
    ∀ (fuel inv lv : Nat), ∃ binv blv,
      bisect (pure_probe o) V fuel inv lv () = (.ok (binv, blv), ()) ∧
      (o (V.getD lv defaultVersion) = true →
        o (V.getD blv defaultVersion) = true) ∧
      min inv lv ≤ blv ∧ blv ≤ max inv lv := by
  intro fuel
  induction fuel with
  | zero =>
    intro inv lv
    refine ⟨inv, lv, ?_, fun h => h, min_le_right _ _, le_max_right _ _⟩
    rw [bisect.eq_def]
    dsimp only
    split
    · rfl
    · rfl
  | succ f ih =>
    intro inv lv
    by_cases hcond : ((inv + lv) / 2 = lv ∨ (inv + lv) / 2 = inv)
    · exact ⟨inv, lv, bisect_break _ _ _ _ _ _ hcond, fun h => h,
        min_le_right _ _, le_max_right _ _⟩
    · rw [bisect_step _ _ _ _ _ _ hcond]
      cases hp : o (V.getD ((inv + lv) / 2) defaultVersion)
      · obtain ⟨binv, blv, heq, hpres, hmin, hmax⟩ := ih ((inv + lv) / 2) lv
        refine ⟨binv, blv, ?_, hpres, ?_, ?_⟩
        · simp only [pure_probe, hp]
          exact heq
        · omega
        · omega
      · obtain ⟨binv, blv, heq, hpres, hmin, hmax⟩ := ih inv ((inv + lv) / 2)
        refine ⟨binv, blv, ?_, fun _ => hpres hp, ?_, ?_⟩
        · simp only [pure_probe, hp]
          exact heq
        · omega
        · omega

theorem search_side_pure_ok (o : SemVersion → Bool) (V : List SemVersion)
    (endIdx s : Nat) (linv : Option Nat) (lval : Nat)
    (h : search_side (pure_probe o) V endIdx s () = (.ok (linv, lval), ())) :
    (linv = none ∧ lval = s ∧ o (V.getD endIdx defaultVersion) = true) ∨
    (∃ b, linv = some b ∧ o (V.getD endIdx defaultVersion) = false ∧
      bisect (pure_probe o) V ((endIdx - s) + (s - endIdx)) endIdx s () =
        (.ok (b, lval), ())) := by
  unfold search_side at h
  cases hp : o (V.getD endIdx defaultVersion)
  · right
    simp only [pure_probe, hp] at h
    rcases hb : bisect (pure_probe o) V ((endIdx - s) + (s - endIdx)) endIdx s ()
      with ⟨bres, st⟩
    cases st
    simp only [hb] at h
    rcases bres with e | ⟨binv, blv⟩
    · simp at h
    · simp only [Prod.mk.injEq, Except.ok.injEq] at h
      obtain ⟨⟨h1, h2⟩, -⟩ := h
      refine ⟨binv, h1.symm, rfl, ?_⟩
      rw [← h2]
  · left
    simp only [pure_probe, hp] at h
    simp only [Prod.mk.injEq, Except.ok.injEq] at h
    obtain ⟨⟨h1, h2⟩, -⟩ := h
    exact ⟨h1.symm, h2.symm, rfl⟩

theorem sorted_getD_lt {V : List SemVersion} (hsort : StrictSorted V)
    {i j : Nat} (hij : i < j) (hj : j < V.length) :
    versLt (V.getD i defaultVersion) (V.getD j defaultVersion) = true := by
  have hi : i < V.length := lt_trans hij hj
  rw [List.getD_eq_getElem _ _ hi, List.getD_eq_getElem _ _ hj]
  exact List.pairwise_iff_getElem.mp hsort i j hi hj hij

theorem matchesImpl_geComp_false {w u : SemVersion} (hne : u ≠ w)
    (hlt : versLt u w = true) : matchesImpl (geComp w) u = false := by
  show (matchesExact (geComp w) u || matchesGreater (geComp w) u) = false
  have h1 : matchesExact (geComp w) u = (u == w) := matchesExact_of_full _ w u
  rw [h1, beq_eq_false_iff_ne.mpr hne, matchesGreater_of_lt hlt]
  rfl

theorem matchesImpl_leComp_false {w u : SemVersion} (hne : u ≠ w)
    (hgt : versLt w u = true) : matchesImpl (leComp w) u = false := by
  show (matchesExact (leComp w) u || matchesLess (leComp w) u) = false
  have h1 : matchesExact (leComp w) u = (u == w) := matchesExact_of_full _ w u
  rw [h1, beq_eq_false_iff_ne.mpr hne, matchesLess_of_gt hgt]
  rfl

/-! ### C2: the simplifier never widens and never narrows -/

/-- C2: for every requirement produced by the raw two-sided search over the
sorted, duplicate-free candidate list `V` (with the documented precondition
that the seed version passes its probe), the simplifier's output matches
exactly the same subset of `V` as the raw requirement. -/
theorem c2_simplifier_preserves (o : SemVersion → Bool) (V : List SemVersion)
    (initial : SemVersion) (R : VersionReq)
    (hsort : StrictSorted V)
    (hseed : o initial = true)
    (hrun : raw_bounds (pure_probe o) initial V () = some (.ok R, ())) :
    V.filter (fun v => reqMatches (simplify_version_req R V) v) =
      V.filter (fun v => reqMatches R v) := by
  apply simplify_preserves_of_unmatched hsort
  intro hne
  have hVs : sortVersions V = V := sortVersions_eq_self hsort
  simp only [raw_bounds, hVs] at hrun
  rcases hf : V.findIdx? (fun v => v == initial) with _ | s
  · simp only [hf] at hrun
    exact Option.noConfusion hrun
  · simp only [hf] at hrun
    obtain ⟨hs, hps, -⟩ := List.findIdx?_eq_some_iff_getElem.mp hf
    have hinit : V.getD s defaultVersion = initial := by
      rw [List.getD_eq_getElem _ _ hs]
      exact beq_iff_eq.mp hps
    have hos : o (V.getD s defaultVersion) = true := by
      rw [hinit]
      exact hseed
    rcases h1 : search_side (pure_probe o) V 0 s () with ⟨res1, u1⟩
    cases u1
    simp only [h1] at hrun
    rcases res1 with e1 | ⟨linv, lval⟩
    · exact absurd hrun (by simp)
    · rcases h2 : search_side (pure_probe o) V (V.length - 1) s () with ⟨res2, u2⟩
      cases u2
      simp only [h2] at hrun
      rcases res2 with e2 | ⟨rinv, rval⟩
      · exact absurd hrun (by simp)
      · simp only [Option.some.injEq, Prod.mk.injEq, Except.ok.injEq] at hrun
        obtain ⟨hR, -⟩ := hrun
        rcases linv with _ | lb
        · rcases rinv with _ | rb
          · exfalso
            apply hne
            rw [← hR]
            rfl
          · rcases search_side_pure_ok o V (V.length - 1) s _ _ h2 with
              ⟨hno, -, -⟩ | ⟨b, -, hfail, hbrun⟩
            · exact absurd hno (by simp)
            · obtain ⟨binv', blv', heq, hpres, hmin, hmax⟩ :=
                bisect_pure_spec o V ((V.length - 1 - s) + (s - (V.length - 1)))
                  (V.length - 1) s
              rw [hbrun] at heq
              simp only [Prod.mk.injEq, Except.ok.injEq] at heq
              obtain ⟨⟨-, hbl⟩, -⟩ := heq
              rw [← hbl] at hpres hmin hmax
              have hor : o (V.getD rval defaultVersion) = true := hpres hos
              have hlen0 : 0 < V.length := by omega
              have hrne : rval ≠ V.length - 1 := by
                intro he
                rw [he, hfail] at hor
                exact Bool.false_ne_true hor
              have hrlt : rval < V.length - 1 := by
                rcases max_cases (V.length - 1) s with ⟨hmx, -⟩ | ⟨hmx, hmls⟩
                · omega
                · omega
              refine ⟨V.getD (V.length - 1) defaultVersion, ?_, ?_⟩
              · rw [List.getD_eq_getElem _ _ (by omega : V.length - 1 < V.length)]
                exact List.getElem_mem _
              · refine reqMatches_false_of_comparator ?_
                  (@matchesImpl_leComp_false (V.getD rval defaultVersion)
                    (V.getD (V.length - 1) defaultVersion) ?_ ?_)
                · rw [← hR]
                  simp
                · intro he
                  rw [← he, hfail] at hor
                  exact Bool.false_ne_true hor
                · exact sorted_getD_lt hsort hrlt (by omega)
        · rcases search_side_pure_ok o V 0 s _ _ h1 with
            ⟨hno, -, -⟩ | ⟨b, -, hfail, hbrun⟩
          · exact absurd hno (by simp)
          · obtain ⟨binv', blv', heq, hpres, hmin, hmax⟩ :=
              bisect_pure_spec o V ((0 - s) + (s - 0)) 0 s
            rw [hbrun] at heq
            simp only [Prod.mk.injEq, Except.ok.injEq] at heq
            obtain ⟨⟨-, hbl⟩, -⟩ := heq
            rw [← hbl] at hpres hmin hmax
            have hol : o (V.getD lval defaultVersion) = true := hpres hos
            have hlne : lval ≠ 0 := by
              intro he
              rw [he, hfail] at hol
              exact Bool.false_ne_true hol
            have hllt : 0 < lval := by omega
            have hlub : lval < V.length := by
              rcases max_cases 0 s with ⟨hmx, -⟩ | ⟨hmx, -⟩
              · omega
              · omega
            refine ⟨V.getD 0 defaultVersion, ?_, ?_⟩
            · rw [List.getD_eq_getElem _ _ (by omega : 0 < V.length)]
              exact List.getElem_mem _
            · refine reqMatches_false_of_comparator ?_
                (@matchesImpl_geComp_false (V.getD lval defaultVersion)
                  (V.getD 0 defaultVersion) ?_ ?_)
              · rw [← hR]
                simp
              · intro he
                rw [← he, hfail] at hol
                exact Bool.false_ne_true hol
              · exact sorted_getD_lt hsort hllt hlub

/-- Oracle for the C2 witness: accepts only `1.0.0`. -/
def c2Oracle : SemVersion → Bool := fun v => v == ⟨1, 0, 0, []⟩

/-- Candidate list for the C2 witness. -/
def c2Versions : List SemVersion := [⟨1, 0, 0, []⟩, ⟨2, 0, 0, []⟩]

/-- Witness for C2: a concrete two-version run whose raw requirement is
`<= 1.0.0`; the simplified requirement matches the same sublist. -/
theorem c2_witness :
    (c2Versions.filter (fun v => reqMatches
      (simplify_version_req ⟨[leComp ⟨1, 0, 0, []⟩]⟩ c2Versions) v)) =
      (c2Versions.filter (fun v =>
        reqMatches ⟨[leComp ⟨1, 0, 0, []⟩]⟩ v)) :=
  c2_simplifier_preserves c2Oracle c2Versions ⟨1, 0, 0, []⟩
    ⟨[leComp ⟨1, 0, 0, []⟩]⟩ (by decide) (by decide) (by decide)

/-! ### C1: the interval searcher, and the pre-release counterexample -/


theorem preLt_nil : preLt ([] : List PreIdent) [] = false := rfl

theorem reqMatches_nopre (req : VersionReq) (u : SemVersion) (hu : u.pre = []) :
    reqMatches req u = req.comparators.all (fun c => matchesImpl c u) := by
  rw [reqMatches, hu]
  simp

theorem matchesGreater_nopre {w u : SemVersion} (hw : w.pre = [])
    (hu : u.pre = []) : matchesGreater (geComp w) u = versLt w u := by
  apply bool_ext
  simp only [matchesGreater, geComp, versLt, hw, hu, preLt_nil, bne_iff_ne,
    ne_eq, Bool.or_eq_true, Bool.and_eq_true, beq_iff_eq, decide_eq_true_eq,
    Bool.and_false, Bool.false_eq_true, or_false, and_false]
  split_ifs with h1 h2 h3 <;> simp_all <;> omega

theorem matchesLess_nopre {w u : SemVersion} (hw : w.pre = [])
    (hu : u.pre = []) : matchesLess (leComp w) u = versLt u w := by
  apply bool_ext
  simp only [matchesLess, leComp, versLt, hw, hu, preLt_nil, bne_iff_ne,
    ne_eq, Bool.or_eq_true, Bool.and_eq_true, beq_iff_eq, decide_eq_true_eq,
    Bool.and_false, Bool.false_eq_true, or_false, and_false]
  split_ifs with h1 h2 h3 <;> simp_all

theorem matchesImpl_geComp_nopre {w u : SemVersion} (hw : w.pre = [])
    (hu : u.pre = []) :
    matchesImpl (geComp w) u = (u == w || versLt w u) := by
  show (matchesExact (geComp w) u || matchesGreater (geComp w) u) = _
  rw [show matchesExact (geComp w) u = (u == w) from matchesExact_of_full _ w u,
    matchesGreater_nopre hw hu]

theorem matchesImpl_leComp_nopre {w u : SemVersion} (hw : w.pre = [])
    (hu : u.pre = []) :
    matchesImpl (leComp w) u = (u == w || versLt u w) := by
  show (matchesExact (leComp w) u || matchesLess (leComp w) u) = _
  rw [show matchesExact (leComp w) u = (u == w) from matchesExact_of_full _ w u,
    matchesLess_nopre hw hu]

theorem ge_bound_iff {V : List SemVersion} (hsort : StrictSorted V)
    {lo i : Nat} (hloV : lo < V.length) (hiV : i < V.length) :
    ((V.getD i defaultVersion == V.getD lo defaultVersion ||
      versLt (V.getD lo defaultVersion) (V.getD i defaultVersion)) = true) ↔
      lo ≤ i := by
  rcases Nat.lt_trichotomy i lo with h | h | h
  · constructor
    · intro hx
      exfalso
      have hlt := sorted_getD_lt hsort h hloV
      simp only [Bool.or_eq_true] at hx
      rcases hx with hb | hv
      · have he := beq_iff_eq.mp hb
        rw [he, versLt_irrefl] at hlt
        exact Bool.false_ne_true hlt
      · rw [versLt_asymm hlt] at hv
        exact Bool.false_ne_true hv
    · intro hle
      exact absurd hle (by omega)
  · subst h
    simp
  · constructor
    · intro _
      omega
    · intro _
      rw [sorted_getD_lt hsort h hiV]
      simp

theorem le_bound_iff {V : List SemVersion} (hsort : StrictSorted V)
    {hi i : Nat} (hhiV : hi < V.length) (hiV : i < V.length) :
    ((V.getD i defaultVersion == V.getD hi defaultVersion ||
      versLt (V.getD i defaultVersion) (V.getD hi defaultVersion)) = true) ↔
      i ≤ hi := by
  rcases Nat.lt_trichotomy i hi with h | h | h
  · constructor
    · intro _
      omega
    · intro _
      rw [sorted_getD_lt hsort h hhiV]
      simp
  · subst h
    simp
  · constructor
    · intro hx
      exfalso
      have hlt := sorted_getD_lt hsort h hiV
      simp only [Bool.or_eq_true] at hx
      rcases hx with hb | hv
      · have he := beq_iff_eq.mp hb
        rw [he, versLt_irrefl] at hlt
        exact Bool.false_ne_true hlt
      · rw [versLt_asymm hlt] at hv
        exact Bool.false_ne_true hv
    · intro hle
      exact absurd hle (by omega)

theorem bisect_pure_left (o : SemVersion → Bool) (V : List SemVersion)
    (lo hi : Nat)
    (horacle : ∀ i, i < V.length →
      (o (V.getD i defaultVersion) = true ↔ (lo ≤ i ∧ i ≤ hi)))
    (hhiV : hi < V.length) :
    ∀ (fuel inv lv : Nat), inv < lo → lo ≤ lv → lv ≤ hi →
      (inv - lv) + (lv - inv) ≤ fuel →
      ∃ binv, bisect (pure_probe o) V fuel inv lv () = (.ok (binv, lo), ()) := by
  intro fuel
  induction fuel with
  | zero =>
    intro inv lv h1 h2 h3 hfuel
    omega
  | succ f ih =>
    intro inv lv h1 h2 h3 hfuel
    by_cases hcond : ((inv + lv) / 2 = lv ∨ (inv + lv) / 2 = inv)
    · have hlv : lv = lo := by omega
      refine ⟨inv, ?_⟩
      rw [bisect_break _ _ _ _ _ _ hcond, hlv]
    · rw [bisect_step _ _ _ _ _ _ hcond]
      have hmidlt : (inv + lv) / 2 < V.length := by omega
      by_cases hmid : lo ≤ (inv + lv) / 2
      · have hpass : o (V.getD ((inv + lv) / 2) defaultVersion) = true :=
          (horacle _ hmidlt).mpr ⟨hmid, by omega⟩
        obtain ⟨binv, hres⟩ := ih inv ((inv + lv) / 2) h1 hmid (by omega)
          (by omega)
        refine ⟨binv, ?_⟩
        simp only [pure_probe, hpass]
        exact hres
      · have hfail : o (V.getD ((inv + lv) / 2) defaultVersion) = false := by
          cases hp : o (V.getD ((inv + lv) / 2) defaultVersion)
          · rfl
          · exact absurd ((horacle _ hmidlt).mp hp).1 hmid
        obtain ⟨binv, hres⟩ := ih ((inv + lv) / 2) lv (by omega) h2 h3 (by omega)
        refine ⟨binv, ?_⟩
        simp only [pure_probe, hfail]
        exact hres

theorem bisect_pure_right (o : SemVersion → Bool) (V : List SemVersion)
    (lo hi : Nat)
    (horacle : ∀ i, i < V.length →
      (o (V.getD i defaultVersion) = true ↔ (lo ≤ i ∧ i ≤ hi))) :
    ∀ (fuel inv lv : Nat), hi < inv → inv < V.length → lo ≤ lv → lv ≤ hi →
      (inv - lv) + (lv - inv) ≤ fuel →
      ∃ binv, bisect (pure_probe o) V fuel inv lv () = (.ok (binv, hi), ()) := by
  intro fuel
  induction fuel with
  | zero =>
    intro inv lv h1 h1V h2 h3 hfuel
    omega
  | succ f ih =>
    intro inv lv h1 h1V h2 h3 hfuel
    by_cases hcond : ((inv + lv) / 2 = lv ∨ (inv + lv) / 2 = inv)
    · have hlv : lv = hi := by omega
      refine ⟨inv, ?_⟩
      rw [bisect_break _ _ _ _ _ _ hcond, hlv]
    · rw [bisect_step _ _ _ _ _ _ hcond]
      have hmidlt : (inv + lv) / 2 < V.length := by omega
      by_cases hmid : (inv + lv) / 2 ≤ hi
      · have hpass : o (V.getD ((inv + lv) / 2) defaultVersion) = true :=
          (horacle _ hmidlt).mpr ⟨by omega, hmid⟩
        obtain ⟨binv, hres⟩ := ih inv ((inv + lv) / 2) h1 h1V (by omega) hmid
          (by omega)
        refine ⟨binv, ?_⟩
        simp only [pure_probe, hpass]
        exact hres
      · have hfail : o (V.getD ((inv + lv) / 2) defaultVersion) = false := by
          cases hp : o (V.getD ((inv + lv) / 2) defaultVersion)
          · rfl
          · exact absurd ((horacle _ hmidlt).mp hp).2 hmid
        obtain ⟨binv, hres⟩ := ih ((inv + lv) / 2) lv (by omega) (by omega) h2 h3
          (by omega)
        refine ⟨binv, ?_⟩
        simp only [pure_probe, hfail]
        exact hres

theorem search_side_pure_true {o : SemVersion → Bool} {V : List SemVersion}
    {endIdx s : Nat} (h : o (V.getD endIdx defaultVersion) = true) :
    search_side (pure_probe o) V endIdx s () = (.ok (none, s), ()) := by
  unfold search_side
  simp only [pure_probe, h]

theorem search_side_pure_false {o : SemVersion → Bool} {V : List SemVersion}
    {endIdx s binv blv : Nat}
    (h : o (V.getD endIdx defaultVersion) = false)
    (hb : bisect (pure_probe o) V ((endIdx - s) + (s - endIdx)) endIdx s () =
      (.ok (binv, blv), ())) :
    search_side (pure_probe o) V endIdx s () = (.ok (some binv, blv), ()) := by
  unfold search_side
  simp only [pure_probe, h, hb]

theorem getD_mem {V : List SemVersion} {i : Nat} (h : i < V.length) :
    V.getD i defaultVersion ∈ V := by
  rw [List.getD_eq_getElem _ _ h]
  exact List.getElem_mem _

theorem filter_eq_pointwise {α : Type} {p q : α → Bool} {l : List α}
    (h : l.filter p = l.filter q) {x : α} (hx : x ∈ l) : p x = q x := by
  apply bool_ext
  constructor
  · intro hp
    have hm : x ∈ l.filter q := h ▸ List.mem_filter.mpr ⟨hx, hp⟩
    exact (List.mem_filter.mp hm).2
  · intro hq
    have hm : x ∈ l.filter p := h.symm ▸ List.mem_filter.mpr ⟨hx, hq⟩
    exact (List.mem_filter.mp hm).2

theorem simplify_pointwise {R : VersionReq} {V : List SemVersion}
    (hsort : StrictSorted V)
    (hner : R.comparators ≠ [] → ∃ u ∈ V, reqMatches R u = false)
    {u : SemVersion} (hu : u ∈ V) :
    reqMatches (simplify_version_req R V) u = reqMatches R u :=
  filter_eq_pointwise (simplify_preserves_of_unmatched hsort hner) hu

theorem findIdx_self_of_sorted {V : List SemVersion} (hsort : StrictSorted V)
    {s : Nat} (hs : s < V.length) :
    V.findIdx? (fun v => v == V.getD s defaultVersion) = some s := by
  apply List.findIdx?_eq_some_iff_getElem.mpr
  refine ⟨hs, ?_, ?_⟩
  · rw [List.getD_eq_getElem _ _ hs]
    exact beq_self_eq_true _
  · intro j hj
    rw [Bool.not_eq_true]
    refine beq_eq_false_iff_ne.mpr ?_
    intro he
    have hlt := sorted_getD_lt hsort hj hs
    rw [List.getD_eq_getElem _ _ (lt_trans hj hs)] at hlt
    rw [List.getD_eq_getElem _ _ hs] at he
    rw [he] at hlt
    rw [List.getD_eq_getElem _ _ hs, versLt_irrefl] at hlt
    exact Bool.false_ne_true hlt

/-- C1 as amended: over a sorted duplicate-free candidate list carrying no
pre-release tags, for every deterministic probe oracle whose passing set is
the contiguous index interval `[lo, hi]` containing the seed index `s`,
`binary_search_bounds` succeeds and returns a requirement that matches a
version of the list exactly when its index lies in `[lo, hi]` — in
particular the neighbours `V[lo-1]` and `V[hi+1]`, when they exist, are
excluded. -/
theorem c1_amended (V : List SemVersion) (o : SemVersion → Bool)
    (s lo hi : Nat)
    (hsort : StrictSorted V)
    (hpre : ∀ v ∈ V, v.pre = [])
    (hs : s < V.length) (hlo : lo ≤ s) (hhi : s ≤ hi) (hhiV : hi < V.length)
    (horacle : ∀ i, i < V.length →
      (o (V.getD i defaultVersion) = true ↔ (lo ≤ i ∧ i ≤ hi))) :
    ∃ req, binary_search_bounds (pure_probe o) (V.getD s defaultVersion) V ()
        = some (.ok req, ()) ∧
      ∀ i, i < V.length →
        (reqMatches req (V.getD i defaultVersion) = true ↔
          (lo ≤ i ∧ i ≤ hi)) := by
  have hVs : sortVersions V = V := sortVersions_eq_self hsort
  have hfind : V.findIdx? (fun v => v == V.getD s defaultVersion) = some s :=
    findIdx_self_of_sorted hsort hs
  have hbsb : ∀ RAW : VersionReq,
      raw_bounds (pure_probe o) (V.getD s defaultVersion) V () =
        some (.ok RAW, ()) →
      binary_search_bounds (pure_probe o) (V.getD s defaultVersion) V () =
        some (.ok (simplify_version_req RAW V), ()) := by
    intro RAW hraw
    simp only [binary_search_bounds, hraw, hVs]
  by_cases hl0 : lo = 0
  · by_cases hrn : hi = V.length - 1
    · -- both sides open: the raw requirement is empty
      have hotrue0 : o (V.getD 0 defaultVersion) = true :=
        (horacle 0 (by omega)).mpr ⟨by omega, by omega⟩
      have hotruen : o (V.getD (V.length - 1) defaultVersion) = true :=
        (horacle (V.length - 1) (by omega)).mpr ⟨by omega, by omega⟩
      have hL : search_side (pure_probe o) V 0 s () = (.ok (none, s), ()) :=
        search_side_pure_true hotrue0
      have hR : search_side (pure_probe o) V (V.length - 1) s () =
          (.ok (none, s), ()) := search_side_pure_true hotruen
      have hraw : raw_bounds (pure_probe o) (V.getD s defaultVersion) V () =
          some (.ok ⟨[]⟩, ()) := by
        simp only [raw_bounds, hVs, hfind, hL, hR]
        rfl
      refine ⟨simplify_version_req ⟨[]⟩ V, hbsb _ hraw, ?_⟩
      intro i hiV2
      rw [simplify_pointwise hsort (fun hne => absurd rfl hne) (getD_mem hiV2)]
      rw [reqMatches_nopre _ _ (hpre _ (getD_mem hiV2))]
      simp only [List.all_nil]
      constructor
      · intro _
        omega
      · intro _
        trivial
    · have hotrue0 : o (V.getD 0 defaultVersion) = true :=
        (horacle 0 (by omega)).mpr ⟨by omega, by omega⟩
      have hofailn : o (V.getD (V.length - 1) defaultVersion) = false := by
        cases hp : o (V.getD (V.length - 1) defaultVersion)
        · rfl
        · exact absurd ((horacle (V.length - 1) (by omega)).mp hp).2 (by omega)
      have hL : search_side (pure_probe o) V 0 s () = (.ok (none, s), ()) :=
        search_side_pure_true hotrue0
      obtain ⟨rb, hbisR⟩ := bisect_pure_right o V lo hi horacle
        ((V.length - 1 - s) + (s - (V.length - 1))) (V.length - 1) s
        (by omega) (by omega) hlo hhi (le_refl _)
      have hR : search_side (pure_probe o) V (V.length - 1) s () =
          (.ok (some rb, hi), ()) := search_side_pure_false hofailn hbisR
      have hraw : raw_bounds (pure_probe o) (V.getD s defaultVersion) V () =
          some (.ok ⟨[leComp (V.getD hi defaultVersion)]⟩, ()) := by
        simp only [raw_bounds, hVs, hfind, hL, hR]
        rfl
      have hne : (⟨[leComp (V.getD hi defaultVersion)]⟩ :
            VersionReq).comparators ≠ [] →
          ∃ u ∈ V, reqMatches ⟨[leComp (V.getD hi defaultVersion)]⟩ u =
            false := by
        intro _
        refine ⟨V.getD (V.length - 1) defaultVersion, getD_mem (by omega), ?_⟩
        rw [reqMatches_nopre _ _ (hpre _ (getD_mem (by omega)))]
        simp only [List.all_cons, List.all_nil, Bool.and_true]
        rw [matchesImpl_leComp_nopre (hpre _ (getD_mem hhiV))
          (hpre _ (getD_mem (by omega)))]
        cases hx : (V.getD (V.length - 1) defaultVersion ==
            V.getD hi defaultVersion ||
            versLt (V.getD (V.length - 1) defaultVersion)
              (V.getD hi defaultVersion))
        · rfl
        · exact absurd ((le_bound_iff hsort hhiV (by omega)).mp hx) (by omega)
      refine ⟨_, hbsb _ hraw, ?_⟩
      intro i hiV2
      rw [simplify_pointwise hsort hne (getD_mem hiV2)]
      rw [reqMatches_nopre _ _ (hpre _ (getD_mem hiV2))]
      simp only [List.all_cons, List.all_nil, Bool.and_true]
      rw [matchesImpl_leComp_nopre (hpre _ (getD_mem hhiV))
        (hpre _ (getD_mem hiV2))]
      constructor
      · intro hx
        exact ⟨by omega, (le_bound_iff hsort hhiV hiV2).mp hx⟩
      · intro hx
        exact (le_bound_iff hsort hhiV hiV2).mpr hx.2
  · have hlolen : lo < V.length := by omega
    have hofail0 : o (V.getD 0 defaultVersion) = false := by
      cases hp : o (V.getD 0 defaultVersion)
      · rfl
      · exact absurd ((horacle 0 (by omega)).mp hp).1 (by omega)
    obtain ⟨lb, hbisL⟩ := bisect_pure_left o V lo hi horacle hhiV
      ((0 - s) + (s - 0)) 0 s (by omega) hlo hhi (le_refl _)
    have hL : search_side (pure_probe o) V 0 s () =
        (.ok (some lb, lo), ()) := search_side_pure_false hofail0 hbisL
    by_cases hrn : hi = V.length - 1
    · have hotruen : o (V.getD (V.length - 1) defaultVersion) = true :=
        (horacle (V.length - 1) (by omega)).mpr ⟨by omega, by omega⟩
      have hR : search_side (pure_probe o) V (V.length - 1) s () =
          (.ok (none, s), ()) := search_side_pure_true hotruen
      have hraw : raw_bounds (pure_probe o) (V.getD s defaultVersion) V () =
          some (.ok ⟨[geComp (V.getD lo defaultVersion)]⟩, ()) := by
        simp only [raw_bounds, hVs, hfind, hL, hR]
        rfl
      have hne : (⟨[geComp (V.getD lo defaultVersion)]⟩ :
            VersionReq).comparators ≠ [] →
          ∃ u ∈ V, reqMatches ⟨[geComp (V.getD lo defaultVersion)]⟩ u =
            false := by
        intro _
        refine ⟨V.getD 0 defaultVersion, getD_mem (by omega), ?_⟩
        rw [reqMatches_nopre _ _ (hpre _ (getD_mem (by omega)))]
        simp only [List.all_cons, List.all_nil, Bool.and_true]
        rw [matchesImpl_geComp_nopre (hpre _ (getD_mem hlolen))
          (hpre _ (getD_mem (by omega)))]
        cases hx : (V.getD 0 defaultVersion == V.getD lo defaultVersion ||
            versLt (V.getD lo defaultVersion) (V.getD 0 defaultVersion))
        · rfl
        · exact absurd ((ge_bound_iff hsort hlolen (by omega)).mp hx) (by omega)
      refine ⟨_, hbsb _ hraw, ?_⟩
      intro i hiV2
      rw [simplify_pointwise hsort hne (getD_mem hiV2)]
      rw [reqMatches_nopre _ _ (hpre _ (getD_mem hiV2))]
      simp only [List.all_cons, List.all_nil, Bool.and_true]
      rw [matchesImpl_geComp_nopre (hpre _ (getD_mem hlolen))
        (hpre _ (getD_mem hiV2))]
      constructor
      · intro hx
        exact ⟨(ge_bound_iff hsort hlolen hiV2).mp hx, by omega⟩
      · intro hx
        exact (ge_bound_iff hsort hlolen hiV2).mpr hx.1
    · have hofailn : o (V.getD (V.length - 1) defaultVersion) = false := by
        cases hp : o (V.getD (V.length - 1) defaultVersion)
        · rfl
        · exact absurd ((horacle (V.length - 1) (by omega)).mp hp).2 (by omega)
      obtain ⟨rb, hbisR⟩ := bisect_pure_right o V lo hi horacle
        ((V.length - 1 - s) + (s - (V.length - 1))) (V.length - 1) s
        (by omega) (by omega) hlo hhi (le_refl _)
      have hR : search_side (pure_probe o) V (V.length - 1) s () =
          (.ok (some rb, hi), ()) := search_side_pure_false hofailn hbisR
      have hraw : raw_bounds (pure_probe o) (V.getD s defaultVersion) V () =
          some (.ok ⟨[geComp (V.getD lo defaultVersion),
            leComp (V.getD hi defaultVersion)]⟩, ()) := by
        simp only [raw_bounds, hVs, hfind, hL, hR]
        rfl
      have hne : (⟨[geComp (V.getD lo defaultVersion),
            leComp (V.getD hi defaultVersion)]⟩ :
            VersionReq).comparators ≠ [] →
          ∃ u ∈ V, reqMatches ⟨[geComp (V.getD lo defaultVersion),
            leComp (V.getD hi defaultVersion)]⟩ u = false := by
        intro _
        refine ⟨V.getD 0 defaultVersion, getD_mem (by omega), ?_⟩
        rw [reqMatches_nopre _ _ (hpre _ (getD_mem (by omega)))]
        simp only [List.all_cons, List.all_nil, Bool.and_true]
        rw [matchesImpl_geComp_nopre (hpre _ (getD_mem hlolen))
          (hpre _ (getD_mem (by omega)))]
        have hx : (V.getD 0 defaultVersion == V.getD lo defaultVersion ||
            versLt (V.getD lo defaultVersion) (V.getD 0 defaultVersion)) =
            false := by
          cases hx0 : (V.getD 0 defaultVersion == V.getD lo defaultVersion ||
              versLt (V.getD lo defaultVersion) (V.getD 0 defaultVersion))
          · rfl
          · exact absurd ((ge_bound_iff hsort hlolen (by omega)).mp hx0)
              (by omega)
        rw [hx]
        rfl
      refine ⟨_, hbsb _ hraw, ?_⟩
      intro i hiV2
      rw [simplify_pointwise hsort hne (getD_mem hiV2)]
      rw [reqMatches_nopre _ _ (hpre _ (getD_mem hiV2))]
      simp only [List.all_cons, List.all_nil, Bool.and_true]
      rw [matchesImpl_geComp_nopre (hpre _ (getD_mem hlolen))
        (hpre _ (getD_mem hiV2)),
        matchesImpl_leComp_nopre (hpre _ (getD_mem hhiV))
        (hpre _ (getD_mem hiV2))]
      rw [Bool.and_eq_true]
      constructor
      · rintro ⟨hx1, hx2⟩
        exact ⟨(ge_bound_iff hsort hlolen hiV2).mp hx1,
          (le_bound_iff hsort hhiV hiV2).mp hx2⟩
      · rintro ⟨hx1, hx2⟩
        exact ⟨(ge_bound_iff hsort hlolen hiV2).mpr hx1,
          (le_bound_iff hsort hhiV hiV2).mpr hx2⟩

/-- Candidate list of the C1 counterexample: `1.5.0-alpha` sits strictly
inside the accepted interval. -/
def c1Versions : List SemVersion :=
  [⟨0, 5, 0, []⟩, ⟨1, 0, 0, []⟩, ⟨1, 5, 0, [.alpha "alpha"]⟩,
    ⟨2, 0, 0, []⟩, ⟨3, 0, 0, []⟩]

/-- Probe oracle of the C1 counterexample: passes exactly
`1.0.0`, `1.5.0-alpha` and `2.0.0` — a contiguous interval of the sorted
list containing the seed `1.0.0`. -/
def c1Oracle : SemVersion → Bool := fun v =>
  v == ⟨1, 0, 0, []⟩ || v == ⟨1, 5, 0, [.alpha "alpha"]⟩ || v == ⟨2, 0, 0, []⟩

/-- C1 counterexample: with seed `1.0.0` and passing interval
`[1.0.0, 1.5.0-alpha, 2.0.0]`, the searcher returns
`>=1.0.0, <=2.0.0`, but that requirement does NOT match `1.5.0-alpha`,
a version strictly inside the interval whose probe passes — the semver
pre-release gate excludes it, so the output does not match exactly
`V[l..=r]` as the claim states. -/
theorem c1_counterexample :
    c1Oracle ⟨1, 5, 0, [.alpha "alpha"]⟩ = true ∧
    (⟨1, 5, 0, [.alpha "alpha"]⟩ : SemVersion) ∈ c1Versions ∧
    binary_search_bounds (pure_probe c1Oracle) ⟨1, 0, 0, []⟩ c1Versions () =
      some (.ok ⟨[geComp ⟨1, 0, 0, []⟩, leComp ⟨2, 0, 0, []⟩]⟩, ()) ∧
    reqMatches ⟨[geComp ⟨1, 0, 0, []⟩, leComp ⟨2, 0, 0, []⟩]⟩
      ⟨1, 5, 0, [.alpha "alpha"]⟩ = false := by
  refine ⟨by decide, by decide, by decide, by decide⟩

/-- Candidate list for the C1 witness (no pre-release tags). -/
def c1WVersions : List SemVersion :=
  [⟨1, 0, 0, []⟩, ⟨1, 1, 0, []⟩, ⟨1, 2, 0, []⟩, ⟨2, 0, 0, []⟩]

/-- Probe oracle for the C1 witness: rejects only `2.0.0`. -/
def c1WOracle : SemVersion → Bool := fun v => !(v == ⟨2, 0, 0, []⟩)

/-- Witness for the amended C1 theorem: seed index 1, passing interval
`[0, 2]` of a four-version list. -/
theorem c1_witness :
    ∃ req, binary_search_bounds (pure_probe c1WOracle)
        (c1WVersions.getD 1 defaultVersion) c1WVersions () =
        some (.ok req, ()) ∧
      ∀ i, i < c1WVersions.length →
        (reqMatches req (c1WVersions.getD i defaultVersion) = true ↔
          (0 ≤ i ∧ i ≤ 2)) :=
  c1_amended c1WVersions c1WOracle 1 0 2 (by decide) (by decide) (by decide)
    (by decide) (by decide) (by decide) (by decide)

end CargoCompat
